import Mathlib

/-!
Verification of the klog directory-backed entry store (pyklog).

Shallow embedding of `pyklog/LogEntry.py` and `pyklog/KitchenLog.py`:
text is modelled as `List Char`, Python's `str.split` family by explicit
recursive functions with identical semantics, `datetime` dates by a
`Date` triple, the header `dict` by an insertion-ordered association
list, and the filesystem by an association list from paths to file
contents.  Fallible Python code (raising exceptions) is modelled with
`Option` / `Except`.
-/

/-- Python whitespace, as stripped by `str.rstrip()` (ASCII fragment). -/
def pySpace (c : Char) : Bool :=
  c = ' ' || c = '\t' || c = '\n' || c = '\r' || c = '\x0b' || c = '\x0c'

/-- Python `s.rstrip()`: drop trailing whitespace. -/
def rstrip (l : List Char) : List Char :=
  (l.reverse.dropWhile pySpace).reverse

/-- Python `s.split(a)` (split on every occurrence of the one-character
separator `a`; `"".split(a) == [""]`). -/
def pySplit (a : Char) : List Char → List (List Char)
  | [] => [[]]
  | c :: cs =>
    if c = a then [] :: pySplit a cs
    else
      match pySplit a cs with
      | [] => [[c]]
      | l :: ls => (c :: l) :: ls

/-- Python `a.join(ls)` for a one-character separator. -/
def pyJoin (a : Char) : List (List Char) → List Char
  | [] => []
  | [l] => l
  | l :: ls => l ++ a :: pyJoin a ls

/-- Python `s.split(sep, 1)` for a two-character separator `[a, b]`,
returning `some (head, tail)` on the first occurrence and `none` when the
separator does not occur (in the source the subsequent tuple unpacking
then raises `ValueError`). -/
def splitOnce2 (a b : Char) : List Char → Option (List Char × List Char)
  | [] => none
  | [_] => none
  | c :: d :: rest =>
    if c = a ∧ d = b then some ([], rest)
    else (splitOnce2 a b (d :: rest)).map (fun p => (c :: p.1, p.2))

/-- Python `s.startswith([a, b])` for a two-character pattern. -/
def startsWith2 (a b : Char) : List Char → Bool
  | c :: d :: _ => c = a ∧ d = b
  | _ => false

/-- `LogEntry.sanitise_entry`: strip carriage returns, right-trim every
line, collapse trailing blank lines/whitespace to one trailing newline. -/
def sanitise_entry (t : List Char) : List Char :=
  let t1 := t.filter (fun c => c ≠ '\r')
  let t2 := pyJoin '\n' ((pySplit '\n' t1).map rstrip)
  rstrip t2 ++ ['\n']

/-- A calendar date, as carried by the `datetime` values the source keeps
(`%Y-%m-%d` resolution). -/
structure Date where
  year : Nat
  month : Nat
  day : Nat
deriving DecidableEq

/-- Digit character of `n` for `n < 10` (the only inputs the code produces,
via `n % 10`). -/
def digitChar (n : Nat) : Char :=
  match n with
  | 0 => '0' | 1 => '1' | 2 => '2' | 3 => '3' | 4 => '4'
  | 5 => '5' | 6 => '6' | 7 => '7' | 8 => '8' | _ => '9'

/-- Fuel-indexed decimal digits of `n` (most significant first); empty
for `n = 0`.  `fuel ≥ n` makes it total. -/
def natToDecAux : Nat → Nat → List Char
  | 0, _ => []
  | _, 0 => []
  | fuel + 1, n => natToDecAux fuel (n / 10) ++ [digitChar (n % 10)]

/-- Python `str(n)` / `'%d' % n` for a non-negative int: decimal digits,
no padding. -/
def natToDec (n : Nat) : List Char :=
  if n = 0 then ['0'] else natToDecAux n n

/-- strftime `%m` / `%d`: zero-padded to two digits. -/
def pad2 (n : Nat) : List Char :=
  if n < 10 then ['0', digitChar n] else natToDec n

/-- Numeric value of a digit string (used to model `int(s)` and
`strptime`'s group conversion). -/
def decDigits (l : List Char) : Nat :=
  l.foldl (fun a c => 10 * a + (c.toNat - 48)) 0

/-- Python `int(s)` on the strings the store produces: all-digit strings
parse to their value, everything else raises (`none`). -/
def pyInt (l : List Char) : Option Nat :=
  if l ≠ [] ∧ l.all Char.isDigit then some (decDigits l) else none

def isLeap (y : Nat) : Bool :=
  (y % 4 = 0 && y % 100 ≠ 0) || y % 400 = 0

def daysInMonth (y m : Nat) : Nat :=
  if m = 2 then (if isLeap y then 29 else 28)
  else if m = 4 ∨ m = 6 ∨ m = 9 ∨ m = 11 then 30
  else 31

/-- Models `datetime.strptime(v, '%Y-%m-%d')`: `%Y` matches exactly four
digits, `%m`/`%d` one or two digits, hyphens literal, no junk allowed,
then calendar validation by the `datetime` constructor
(`MINYEAR = 1`, real month lengths).  Failure (`ValueError`) is `none`. -/
def parseDate (v : List Char) : Option Date :=
  match pySplit '-' v with
  | [ys, ms, ds] =>
    if ys.length = 4 ∧ ys.all Char.isDigit ∧
       (ms.length = 1 ∨ ms.length = 2) ∧ ms.all Char.isDigit ∧
       (ds.length = 1 ∨ ds.length = 2) ∧ ds.all Char.isDigit then
      let y := decDigits ys
      let m := decDigits ms
      let d := decDigits ds
      if 1 ≤ y ∧ 1 ≤ m ∧ m ≤ 12 ∧ 1 ≤ d ∧ d ≤ daysInMonth y m then
        some ⟨y, m, d⟩
      else none
    else none
  | _ => none

/-- Python `value.lower()` on a char list. -/
def toLowerL (l : List Char) : List Char := l.map Char.toLower

/-- `parse_defval`: the literal `none` (case-insensitive) and the empty
string map to `None`. -/
def parse_defval (value : List Char) : Option (List Char) :=
  if toLowerL value = "none".data ∨ value = [] then none else some value

/-- `parse_ymd`: `parse_defval`, then `strptime('%Y-%m-%d')`, with parse
failure also mapped to `None`. -/
def parse_ymd (value : List Char) : Option Date :=
  match parse_defval value with
  | none => none
  | some v => parseDate v

/-- `format_defval`: falsy values render as the literal `None`. -/
def format_defval : Option (List Char) → List Char
  | none => "None".data
  | some v => if v = [] then "None".data else v

/-- `format_ymd`: `None` renders via `format_defval`, dates via
`strftime('%Y-%m-%d')` (glibc: `%Y` unpadded, `%m`/`%d` zero-padded). -/
def format_ymd : Option Date → List Char
  | none => "None".data
  | some d => natToDec d.year ++ '-' :: pad2 d.month ++ '-' :: pad2 d.day

deriving instance DecidableEq for Except

/-- The header dictionary: insertion-ordered key/value pairs, where
`headers[key] = value` updates in place or appends. -/
abbrev Hdrs := List (List Char × Option (List Char))

/-- Python `d[k] = v` on the insertion-ordered dict. -/
def dinsert (k : List Char) (v : Option (List Char)) : Hdrs → Hdrs
  | [] => [(k, v)]
  | (k1, v1) :: rest =>
    if k1 = k then (k, v) :: rest else (k1, v1) :: dinsert k v rest

/-- Python `d.get(k)` distinguishing absence (`none`) from a stored
`None` (`some none`). -/
def dlookup (k : List Char) : Hdrs → Option (Option (List Char))
  | [] => none
  | (k1, v1) :: rest => if k1 = k then some v1 else dlookup k rest

/-- The tuple returned by `LogEntry.try_parse`:
`(begin, end, headers, content)`. -/
structure Fields where
  begin : Date
  end_ : Option Date
  headers : Hdrs
  content : List Char
deriving DecidableEq

/-- Split every header line at its first `': '`; `none` models the
`ValueError` raised when a line has no `': '` (tuple unpacking). -/
def splitHeaderLines : List (List Char) → Option (List (List Char × List Char))
  | [] => some []
  | l :: rest =>
    match splitOnce2 ':' ' ' l with
    | none => none
    | some kv => (splitHeaderLines rest).map (fun t => kv :: t)

/-- The header loop of `try_parse`: `BEGIN`/`END` go through `parse_ymd`
into dedicated slots (later occurrences overwrite), everything else
through `parse_defval` into the dict. -/
def processHeadersGo (b e : Option Date) (h : Hdrs) :
    List (List Char × List Char) → Option Date × Option Date × Hdrs
  | [] => (b, e, h)
  | (k, v) :: rest =>
    if k = "BEGIN".data then processHeadersGo (parse_ymd v) e h rest
    else if k = "END".data then processHeadersGo b (parse_ymd v) h rest
    else processHeadersGo b e (dinsert k (parse_defval v) h) rest

def processHeaders (ps : List (List Char × List Char)) :
    Option Date × Option Date × Hdrs :=
  processHeadersGo none none [] ps

/-- `LogEntry.try_parse`.  Raised `ValueError`s become `.error` with the
source's message. -/
def try_parse (log_entry : List Char) : Except String Fields :=
  if log_entry = [] then .error "file is empty"
  else
    let t := sanitise_entry log_entry
    match splitOnce2 '\n' '\n' t with
    | none =>
      .error "unable to split header and content: not enough values to unpack (expected 2, got 1)"
    | some (headers_raw, content) =>
      let hlines := (pySplit '\n' headers_raw).filter
        (fun l => ¬ startsWith2 '#' ' ' l)
      match splitHeaderLines hlines with
      | none => .error "not enough values to unpack (expected 2, got 1)"
      | some pairs =>
        match processHeaders pairs with
        | (b, e, hs) =>
          match b with
          | none => .error "Missing header: BEGIN"
          | some bd =>
            if dlookup "TOPIC".data hs = none then .error "Missing header: TOPIC"
            else if dlookup "APPENDIX".data hs = none then .error "Missing header: APPENDIX"
            else if content = [] then .error "Empty content"
            else .ok ⟨bd, e, hs, content⟩

/-- `LogEntry.__str__` on the parsed fields: the four fixed header lines,
a blank line, then the body.  `none` models the `KeyError` raised when
`TOPIC` or `APPENDIX` is absent from the dict. -/
def toText (f : Fields) : Option (List Char) :=
  match dlookup "TOPIC".data f.headers, dlookup "APPENDIX".data f.headers with
  | some tv, some av =>
    some ("BEGIN: ".data ++ format_ymd (some f.begin) ++
          '\n' :: "END: ".data ++ format_ymd f.end_ ++
          '\n' :: "TOPIC: ".data ++ format_defval tv ++
          '\n' :: "APPENDIX: ".data ++ format_defval av ++
          '\n' :: '\n' :: f.content)
  | _, _ => none

/-! ## Path scheme and filesystem model -/

/-- `os.path.join(a, b)` for the relative paths the store builds. -/
def joinP (a b : List Char) : List Char :=
  if b.head? = some '/' then b
  else if a = [] then b
  else if a.getLast? = some '/' then a ++ b
  else a ++ '/' :: b

/-- strftime `'%Y/%m/%d'` of a date. -/
def dateSlash (d : Date) : List Char :=
  natToDec d.year ++ '/' :: pad2 d.month ++ '/' :: pad2 d.day

/-- `LogEntry.fname`: `begin.strftime('%Y/%m/%d') + '-%d.txt' % index`. -/
def fnameOf (d : Date) (i : Nat) : List Char :=
  dateSlash d ++ '-' :: natToDec i ++ ".txt".data

/-- `mediadir(date, index) = join('media', date.strftime('%Y/%m/%d'), str(index))`. -/
def mediadirOf (d : Date) (i : Nat) : List Char :=
  joinP (joinP "media".data (dateSlash d)) (natToDec i)

/-- The filesystem: an association list from existing file paths to
their contents (directories are implicit, `makedirs` is a no-op). -/
def FS := List (List Char × List Char)

instance : DecidableEq FS := by
  unfold FS
  infer_instance

/-- `os.path.isfile`. -/
def fsHas (fs : FS) (p : List Char) : Bool :=
  fs.any (fun q => q.1 = p)

/-- Read a file's bytes; `none` models `FileNotFoundError`. -/
def fsGet : FS → List Char → Option (List Char)
  | [], _ => none
  | (q, c) :: rest, p => if q = p then some c else fsGet rest p

/-- `open(p, 'w')` followed by a full write: truncate-or-create. -/
def fsWrite : FS → List Char → List Char → FS
  | [], p, c => [(p, c)]
  | (q, c1) :: rest, p, c =>
    if q = p then (p, c) :: rest else (q, c1) :: fsWrite rest p c

/-- `os.remove(p)`; `none` models `FileNotFoundError` on a missing path. -/
def fsRemove : FS → List Char → Option FS
  | [], _ => none
  | (q, c) :: rest, p =>
    if q = p then some rest else (fsRemove rest p).map (fun r => (q, c) :: r)

/-- Remove a list of paths in order, failing on the first missing one. -/
def removeFiles : FS → List (List Char) → Option FS
  | fs, [] => some fs
  | fs, p :: rest =>
    match fsRemove fs p with
    | none => none
    | some fs1 => removeFiles fs1 rest

/-- Write a list of `(path, content)` pairs in order. -/
def writeFiles : FS → List (List Char × List Char) → FS
  | fs, [] => fs
  | fs, (p, c) :: rest => writeFiles (fsWrite fs p c) rest

/-- Python `set.add` on the list-modelled set: append if absent. -/
def sinsert {α : Type} [DecidableEq α] (x : α) (s : List α) : List α :=
  if x ∈ s then s else s ++ [x]

/-! ## The entry (`LogEntry`) -/

/-- The mutable state of a `LogEntry`: `_remove`, `_filename`,
`_filename_date`, `_dirty`, `_directory`, `_removed_media`,
`_added_media`, `_index`, the parsed `(begin, end, headers, content)`
tuple, and `_media`. -/
structure LogEntry where
  removeFlag : Bool
  filename : Option (List Char)
  filename_date : Option Date
  dirtyFlag : Bool
  directory : List Char
  removed_media : List (List Char)
  added_media : List (List Char × List Char)
  index : Nat
  fields : Fields
  media : List (List Char)
deriving DecidableEq

/-- The `dirty` property: `self._dirty or (self._begin != self._filename_date)`. -/
def LogEntry.dirty (e : LogEntry) : Bool :=
  e.dirtyFlag || decide (some e.fields.begin ≠ e.filename_date)

/-- `LogEntry.reload(log_entry, dirty)`: sets `_dirty` first, then
re-parses; on a parse error the flag has already been mutated, so the
error carries the partially-updated entry. -/
def LogEntry.reload (e : LogEntry) (t : List Char) (d : Bool) :
    Except (String × LogEntry) LogEntry :=
  match try_parse t with
  | .error m => .error (m, { e with dirtyFlag := d })
  | .ok f => .ok { e with dirtyFlag := d, fields := f }

/-- `LogEntry.remove_media(no)`: out-of-range ordinals return silently;
otherwise `pop` the filename and add it to `_removed_media`. -/
def LogEntry.remove_media (e : LogEntry) (no : Nat) : LogEntry :=
  if h : e.media.length ≤ no then e
  else
    { e with media := e.media.eraseIdx no,
             removed_media :=
               sinsert (e.media.get ⟨no, by omega⟩) e.removed_media }

/-- `LogEntry.remove()`: mark for removal. -/
def LogEntry.remove (e : LogEntry) : LogEntry :=
  { e with dirtyFlag := true, removeFlag := true }

/-- `LogEntry.attach_media(name, content)`. -/
def LogEntry.attach_media (e : LogEntry) (name content : List Char) : LogEntry :=
  { e with media := e.media ++ [name],
           added_media := sinsert (name, content) e.added_media }

/-- `os.path.split`: split at the last `'/'`, stripping trailing
slashes from the head unless it is all slashes. -/
def pySplitLastSlash (p : List Char) : List Char × List Char :=
  let r := p.reverse
  let tail := (r.takeWhile (fun c => c ≠ '/')).reverse
  let head := (r.dropWhile (fun c => c ≠ '/')).reverse
  if head ≠ [] ∧ head.any (fun c => c ≠ '/') then
    ((head.reverse.dropWhile (fun c => c = '/')).reverse, tail)
  else (head, tail)

/-- `os.path.splitext(p)[0]` for a final path component: cut at the last
dot unless everything before it is dots. -/
def splitextRoot (p : List Char) : List Char :=
  let r := p.reverse
  if (r.takeWhile (fun c => c ≠ '.')).length = p.length then p
  else
    let rootRev := (r.dropWhile (fun c => c ≠ '.')).tail
    if rootRev.all (fun c => c = '.') then p else rootRev.reverse

/-- `LogEntry.set_filename(filename)`: record the path, then re-derive
`_index` (from `DD-i.txt`) and `_filename_date` (from the `YYYY/MM`
components and the parsed day re-rendered with `str()`).  `none` models
the `ValueError` from `int()` or tuple unpacking on malformed paths. -/
def LogEntry.set_filename (e : LogEntry) (filename : List Char) : Option LogEntry :=
  let pb := pySplitLastSlash filename
  let base0 := splitextRoot pb.2
  match pySplit '-' base0 with
  | [dstr, istr] =>
    match pyInt dstr, pyInt istr with
    | some day, some idx =>
      let pm := pySplitLastSlash pb.1
      let py := pySplitLastSlash pm.1
      some { e with filename := some filename, index := idx,
                    filename_date :=
                      parse_ymd (py.2 ++ '-' :: pm.2 ++ '-' :: natToDec day) }
    | _, _ => none
  | _ => none

/-- The `while isfile(...)` probe of `save`: first index at or after `i`
whose candidate path is not on disk, with enough fuel to cover every
occupied path. -/
def probeFrom (fs : FS) (f : Nat → List Char) : Nat → Nat → Option Nat
  | _, 0 => none
  | i, fuel + 1 => if fsHas fs (f i) then probeFrom fs f (i + 1) fuel else some i

/-- The relocation loop of `save` step 2: read each attachment from the
old media directory into `_added_media`, deleting the originals. -/
def relocateMedia (dir : List Char) (fd : Date) (idx : Nat) :
    List (List Char) → FS → List (List Char × List Char) →
    Option (FS × List (List Char × List Char))
  | [], fs, added => some (fs, added)
  | m :: rest, fs, added =>
    match fsGet fs (joinP (joinP dir (mediadirOf fd idx)) m) with
    | none => none
    | some content =>
      match fsRemove fs (joinP (joinP dir (mediadirOf fd idx)) m) with
      | none => none
      | some fs1 => relocateMedia dir fd idx rest fs1 (sinsert (m, content) added)

/-- Tail of `save`: serialize and write the record file, delete the
queued removals from the media dir, write the queued additions, clear
both queues.  The dirty flag is not touched (as in the source). -/
def saveWrite (e : LogEntry) (fs : FS) : Option (LogEntry × FS) :=
  match e.filename with
  | none => none
  | some fn =>
    match toText e.fields with
    | none => none
    | some s =>
      let mdir := joinP e.directory (mediadirOf e.fields.begin e.index)
      let fs1 := fsWrite fs fn s
      match removeFiles fs1 (e.removed_media.map (fun m => joinP mdir m)) with
      | none => none
      | some fs2 =>
        let fs3 := writeFiles fs2 (e.added_media.map (fun p => (joinP mdir p.1, p.2)))
        some ({ e with added_media := [], removed_media := [] }, fs3)

/-- Step 3 of `save`: entries without a `_filename` probe for the lowest
free index from 0, then `set_filename` the resulting path. -/
def saveAlloc (e : LogEntry) (fs : FS) : Option (LogEntry × FS) :=
  match e.filename with
  | none =>
    match probeFrom fs (fun i => joinP e.directory (fnameOf e.fields.begin i))
        0 (fs.length + 1) with
    | none => none
    | some r =>
      match LogEntry.set_filename { e with index := r }
          (joinP e.directory (fnameOf e.fields.begin r)) with
      | none => none
      | some e1 => saveWrite e1 fs
  | some _ => saveWrite e fs

/-- `LogEntry.save()`.  Removal branch, relocation branch (date changed
while on disk), index allocation, then the write tail.  `none` models an
uncaught exception. -/
def LogEntry.save (e : LogEntry) (fs : FS) : Option (LogEntry × FS) :=
  if e.removeFlag then
    match e.filename with
    | none => some (e, fs)
    | some fn =>
      match removeFiles fs (e.media.map
          (fun m => joinP (joinP e.directory (mediadirOf e.fields.begin e.index)) m)) with
      | none => none
      | some fs1 =>
        match fsRemove fs1 fn with
        | none => none
        | some fs2 => some (e, fs2)
  else
    match e.filename_date with
    | some fd =>
      if e.fields.begin ≠ fd then
        match relocateMedia e.directory fd e.index e.media fs e.added_media with
        | none => none
        | some (fs1, added1) =>
          match e.filename with
          | none => none
          | some fn =>
            match fsRemove fs1 fn with
            | none => none
            | some fs2 =>
              saveAlloc { e with added_media := added1, filename := none } fs2
      else saveAlloc e fs
    | none => saveAlloc e fs

/-! ## The store (`KitchenLog`) -/

/-- Outcome of a `commit()` run: which entries `save()` was invoked on
(in order), the post-save entry states of the successful ones, the
resulting filesystem, and whether the run finished without an
exception. -/
structure CommitResult where
  attempted : List LogEntry
  saved : List LogEntry
  fs : FS
  ok : Bool
deriving DecidableEq

/-- Sequential evaluation of `list(map(lambda x: x.save(), dirty))`: an
exception from one `save` aborts the iteration, leaving the remaining
entries unattempted. -/
def commitSaves : List LogEntry → FS → CommitResult
  | [], fs => ⟨[], [], fs, true⟩
  | e :: es, fs =>
    match e.save fs with
    | none => ⟨[e], [], fs, false⟩
    | some (e1, fs1) =>
      let r := commitSaves es fs1
      ⟨e :: r.attempted, e1 :: r.saved, r.fs, r.ok⟩

/-- `KitchenLog.commit()`:
`list(map(lambda x: x.save(), [x for x in self._entries if x.dirty]))`. -/
def commit (entries : List LogEntry) (fs : FS) : CommitResult :=
  commitSaves (entries.filter (fun e => e.dirty)) fs

/-! ## Inversion of a successful parse -/

/-- Anatomy of a successful `try_parse`: the sanitised text splits at the
first blank line, the header lines all split at `': '`, the header loop
produced the recorded `begin`/`end`/dict, and the four sanity checks
passed. -/
theorem try_parse_ok {t : List Char} {f : Fields} (h : try_parse t = .ok f) :
    t ≠ [] ∧
    ∃ H pairs,
      splitOnce2 '\n' '\n' (sanitise_entry t) = some (H, f.content) ∧
      splitHeaderLines ((pySplit '\n' H).filter
        (fun l => ¬ startsWith2 '#' ' ' l)) = some pairs ∧
      processHeaders pairs = (some f.begin, f.end_, f.headers) ∧
      dlookup "TOPIC".data f.headers ≠ none ∧
      dlookup "APPENDIX".data f.headers ≠ none ∧
      f.content ≠ [] := by
  unfold try_parse at h
  split at h
  · exact absurd h (by simp)
  next hne =>
    refine ⟨hne, ?_⟩
    dsimp only at h
    split at h
    · exact absurd h (by simp)
    next H C hsplit =>
      split at h
      · exact absurd h (by simp)
      next pairs hpairs =>
        split at h
        · exact absurd h (by simp)
        next d hproc =>
          split at h
          · exact absurd h (by simp)
          next htop =>
            split at h
            · exact absurd h (by simp)
            next happ =>
              split at h
              · exact absurd h (by simp)
              next hcon =>
                have hP : processHeaders pairs =
                    ((processHeaders pairs).1, (processHeaders pairs).2.1,
                     (processHeaders pairs).2.2) := rfl
                obtain ⟨rfl⟩ :
                    f = ⟨d, (processHeaders pairs).2.1, (processHeaders pairs).2.2, C⟩ := by
                  cases h
                  rfl
                rw [hproc] at hP
                exact ⟨H, pairs, hsplit, hpairs, hP, htop, happ, hcon⟩

/-- The exhaustive list of error messages `try_parse` can raise. -/
theorem try_parse_error_msgs {t : List Char} {m : String}
    (h : try_parse t = .error m) :
    m = "file is empty" ∨
    m = "unable to split header and content: not enough values to unpack (expected 2, got 1)" ∨
    m = "not enough values to unpack (expected 2, got 1)" ∨
    m = "Missing header: BEGIN" ∨
    m = "Missing header: TOPIC" ∨
    m = "Missing header: APPENDIX" ∨
    m = "Empty content" := by
  unfold try_parse at h
  split at h
  · cases h
    tauto
  dsimp only at h
  split at h
  · cases h
    tauto
  · split at h
    · cases h
      tauto
    · split at h
      · cases h
        tauto
      · split at h
        · cases h
          tauto
        split at h
        · cases h
          tauto
        split at h
        · cases h
          tauto
        · cases h

/-! ## Claim C8: dirty is a derived predicate -/

/-- Claim C8 (confirmed): at every point in an entry's lifecycle the
`dirty` predicate holds exactly when the explicit mutation flag is set or
`begin` differs from the date encoded in the source filename; it is
derived from both conditions, not just the stored bit. -/
theorem dirty_is_derived (e : LogEntry) :
    e.dirty = true ↔
      (e.dirtyFlag = true ∨ some e.fields.begin ≠ e.filename_date) := by
  simp [LogEntry.dirty]

/-! ## Claim C10: out-of-range media detach is a silent no-op -/

/-- Claim C10 (confirmed): for an ordinal at or past the end of the media
list, `remove_media` returns without error and leaves the entry — in
particular its media list and queued-removal set — unchanged. -/
theorem remove_media_out_of_range (e : LogEntry) (no : Nat)
    (h : e.media.length ≤ no) : e.remove_media no = e := by
  simp [LogEntry.remove_media, h]

/-- Concrete entry used to instantiate the C10 theorem. -/
def exEntryC10 : LogEntry :=
  ⟨false, none, none, false, "repo".data, [], [], 0,
   ⟨⟨2024, 1, 5⟩, none, [("TOPIC".data, some "Test".data), ("APPENDIX".data, none)],
    "Hello\n".data⟩,
   ["a.jpg".data]⟩

/-- Witness for C10 at a concrete entry with one attachment and ordinal 3. -/
theorem remove_media_out_of_range_witness :
    exEntryC10.media.length ≤ 3 ∧ exEntryC10.remove_media 3 = exEntryC10 :=
  ⟨by decide, remove_media_out_of_range exEntryC10 3 (by decide)⟩

/-! ## Claim C5: is APPENDIX optional? -/

/-- A text with separator, valid `BEGIN`, `TOPIC` and non-empty body but
no `APPENDIX` header. -/
def exTextNoAppendix : List Char :=
  "BEGIN: 2024-01-05\nEND: None\nTOPIC: Test\n\nHello\n".data

/-- Counterexample to claim C5 as stated: a well-formed text without an
`APPENDIX` header does not parse; `try_parse` raises
`Missing header: APPENDIX`. -/
theorem parse_rejects_missing_appendix :
    try_parse exTextNoAppendix = .error "Missing header: APPENDIX" := by decide

/-- A text identical except for an `APPENDIX: None` header. -/
def exTextWithAppendix : List Char :=
  "BEGIN: 2024-01-05\nEND: None\nTOPIC: Test\nAPPENDIX: None\n\nHello\n".data

/-- Claim C5 (amended): the `APPENDIX` header key is required — every
successful parse has it in its header dict — but its value is optional:
a text carrying `APPENDIX: None` (with separator, valid `BEGIN`, `TOPIC`
and non-empty body) parses successfully. -/
theorem appendix_key_required_value_optional :
    (∀ t f, try_parse t = .ok f → dlookup "APPENDIX".data f.headers ≠ none) ∧
    (try_parse exTextWithAppendix).isOk = true := by
  constructor
  · intro t f h
    exact (try_parse_ok h).2.choose_spec.choose_spec.2.2.2.2.1
  · decide

/-- The fields produced by parsing `exTextWithAppendix`. -/
def exFieldsC5 : Fields :=
  ⟨⟨2024, 1, 5⟩, none,
   [("TOPIC".data, some "Test".data), ("APPENDIX".data, none)], "Hello\n".data⟩

/-- Witness instantiating the universally quantified part of the amended
C5 theorem at a concrete parse. -/
theorem appendix_key_required_value_optional_witness :
    try_parse exTextWithAppendix = .ok exFieldsC5 ∧
    dlookup "APPENDIX".data exFieldsC5.headers ≠ none :=
  ⟨by decide,
   appendix_key_required_value_optional.1 exTextWithAppendix exFieldsC5 (by decide)⟩

/-! ## Claim C3: MEDIA headers in replacement text -/

/-- Entry with no attachments, for the C3 counterexample. -/
def exEntryC3 : LogEntry :=
  ⟨false, none, none, false, "repo".data, [], [], 0,
   ⟨⟨2024, 1, 5⟩, none, [("TOPIC".data, some "Test".data), ("APPENDIX".data, none)],
    "Hello\n".data⟩,
   []⟩

/-- The entry state after that reload: the `MEDIA` line became an
ordinary extra header. -/
def exEntryC3After : LogEntry :=
  ⟨false, none, none, true, "repo".data, [], [], 0,
   ⟨⟨2024, 1, 5⟩, none,
    [("TOPIC".data, some "Test".data), ("APPENDIX".data, none),
     ("MEDIA".data, some "foo.jpg".data)],
    "Hello\n".data⟩,
   []⟩

/-- Replacement text whose `MEDIA` header names a file absent from the
entry's (empty) attachment list. -/
def exTextC3 : List Char :=
  "BEGIN: 2024-01-05\nEND: None\nTOPIC: Test\nAPPENDIX: None\nMEDIA: foo.jpg\n\nHello\n".data

/-- Counterexample to claim C3 as stated: reloading text that introduces
a `MEDIA` header succeeds (no `FormatError` at all, in particular not
"direct adding of media is not supported"); the header lands in the
entry's dict as an opaque extra header and nothing is queued. -/
theorem reload_accepts_new_media_header :
    exEntryC3.reload exTextC3 true = .ok exEntryC3After := by decide

/-- Claim C3 (amended): `reload` performs no media diffing whatsoever.
It can never fail with "direct adding of media is not supported" (that
message is not among the parser's errors), and a successful reload
leaves the attachment list, the queued-removal set and the queued-add
set untouched — media can only change through the explicit
`attach_media` / `remove_media` operations. -/
theorem reload_never_diffs_media :
    (∀ (e : LogEntry) (t : List Char) (d : Bool) (e1 : LogEntry),
      e.reload t d = .ok e1 →
        e1.media = e.media ∧ e1.removed_media = e.removed_media ∧
        e1.added_media = e.added_media) ∧
    (∀ (e : LogEntry) (t : List Char) (d : Bool) (m : String) (e1 : LogEntry),
      e.reload t d = .error (m, e1) →
        m ≠ "direct adding of media is not supported") := by
  constructor
  · intro e t d e1 h
    unfold LogEntry.reload at h
    split at h
    · exact absurd h (by simp)
    · cases h
      exact ⟨rfl, rfl, rfl⟩
  · intro e t d m e1 h
    unfold LogEntry.reload at h
    split at h
    next m1 herr =>
      obtain ⟨rfl, -⟩ : m = m1 ∧ e1 = { e with dirtyFlag := d } := by
        cases h
        exact ⟨rfl, rfl⟩
      rcases try_parse_error_msgs herr with h | h | h | h | h | h | h <;>
        simp [h]
    · exact absurd h (by simp)

/-- Witness instantiating the amended C3 theorem at the concrete reload
above. -/
theorem reload_never_diffs_media_witness :
    exEntryC3.reload exTextC3 true = .ok exEntryC3After ∧
    (exEntryC3After.media = exEntryC3.media ∧
     exEntryC3After.removed_media = exEntryC3.removed_media ∧
     exEntryC3After.added_media = exEntryC3.added_media) :=
  ⟨by decide,
   reload_never_diffs_media.1 exEntryC3 exTextC3 true exEntryC3After (by decide)⟩

/-! ## Claim C6: does save clear the dirty predicate? -/

/-- A persisted entry (source path and matching source date) whose
explicit dirty flag is set, e.g. after `reload(text, True)`. -/
def exEntryC6 : LogEntry :=
  ⟨false, some (joinP "repo".data (fnameOf ⟨2024, 1, 5⟩ 0)), some ⟨2024, 1, 5⟩,
   true, "repo".data, [], [], 0,
   ⟨⟨2024, 1, 5⟩, none, [("TOPIC".data, some "Test".data), ("APPENDIX".data, none)],
    "Hello\n".data⟩,
   []⟩

/-- The filesystem holding that entry's record file. -/
def exFsC6 : FS := [(joinP "repo".data (fnameOf ⟨2024, 1, 5⟩ 0), "old".data)]

/-- Claim C6 evaluated at the failing input (code bug): `save()` succeeds
on a dirty, not-removal-marked entry, yet the resulting entry still
satisfies the `dirty` predicate, because the source never resets
`_dirty` — the saved entry is returned entirely unchanged. -/
theorem save_leaves_dirty_flag_set :
    exEntryC6.removeFlag = false ∧ exEntryC6.dirtyFlag = true ∧
    exEntryC6.save exFsC6 =
      some (exEntryC6, [(joinP "repo".data (fnameOf ⟨2024, 1, 5⟩ 0),
        "BEGIN: 2024-01-05\nEND: None\nTOPIC: Test\nAPPENDIX: None\n\nHello\n".data)]) ∧
    (exEntryC6.save exFsC6).map (fun r => r.1.dirty) = some true := by decide

/-! ## Claim C1: commit and per-entry isolation -/

/-- Structure of a `commitSaves` run: the attempted entries are an
initial segment of the input, a clean run attempts everything, and a
failed run's attempted list ends at the entry whose save raised against
the filesystem state reached at that point. -/
theorem commitSaves_spec (l : List LogEntry) (fs : FS) :
    (∃ rest, l = (commitSaves l fs).attempted ++ rest) ∧
    ((commitSaves l fs).ok = true → (commitSaves l fs).attempted = l) ∧
    ((commitSaves l fs).ok = false →
      ∃ pre elast, (commitSaves l fs).attempted = pre ++ [elast] ∧
        elast.save (commitSaves l fs).fs = none) := by
  induction l generalizing fs with
  | nil => exact ⟨⟨[], rfl⟩, fun _ => rfl, fun h => by simp [commitSaves] at h⟩
  | cons e es ih =>
    cases hsave : e.save fs with
    | none =>
      refine ⟨⟨es, by simp [commitSaves, hsave]⟩, ?_, ?_⟩
      · intro h
        simp [commitSaves, hsave] at h
      · intro _
        exact ⟨[], e, by simp [commitSaves, hsave], by simp [commitSaves, hsave, hsave]⟩
    | some r =>
      obtain ⟨hrest, hok, hfail⟩ := ih r.2
      refine ⟨?_, ?_, ?_⟩
      · obtain ⟨rest, hr⟩ := hrest
        exact ⟨rest, by simp [commitSaves, hsave]; exact hr⟩
      · intro h
        simp [commitSaves, hsave] at h ⊢
        exact hok h
      · intro h
        simp [commitSaves, hsave] at h
        obtain ⟨pre, elast, h1, h2⟩ := hfail h
        refine ⟨e :: pre, elast, ?_, ?_⟩
        · simp [commitSaves, hsave, h1]
        · simp [commitSaves, hsave]
          exact h2

/-- Claim C1 (amended): `commit()` calls `save()` on the dirty entries in
list order, but an exception from one save propagates out of the `map`
and stops the iteration: the attempted entries are an initial segment of
the dirty list ending at the first failing save, and only a run in which
every save succeeds attempts every dirty entry. -/
theorem commit_stops_at_first_error (entries : List LogEntry) (fs : FS) :
    (∃ rest, entries.filter (fun e => e.dirty) =
      (commit entries fs).attempted ++ rest) ∧
    ((commit entries fs).ok = true →
      (commit entries fs).attempted = entries.filter (fun e => e.dirty)) ∧
    ((commit entries fs).ok = false →
      ∃ pre elast, (commit entries fs).attempted = pre ++ [elast] ∧
        elast.save (commit entries fs).fs = none) :=
  commitSaves_spec (entries.filter (fun e => e.dirty)) fs

/-- Dirty entry whose save raises: its queued media removal names a file
that is not on disk (`FileNotFoundError`). -/
def exEntryC1bad : LogEntry :=
  ⟨false, some (joinP "repo".data (fnameOf ⟨2024, 1, 5⟩ 0)), some ⟨2024, 1, 5⟩,
   true, "repo".data, ["ghost.jpg".data], [], 0,
   ⟨⟨2024, 1, 5⟩, none, [("TOPIC".data, some "Test".data), ("APPENDIX".data, none)],
    "Hello\n".data⟩,
   []⟩

/-- A second dirty entry whose save would succeed. -/
def exEntryC1good : LogEntry :=
  ⟨false, some (joinP "repo".data (fnameOf ⟨2024, 1, 6⟩ 0)), some ⟨2024, 1, 6⟩,
   true, "repo".data, [], [], 0,
   ⟨⟨2024, 1, 6⟩, none, [("TOPIC".data, some "Wurst".data), ("APPENDIX".data, none)],
    "Mehr\n".data⟩,
   []⟩

def exFsC1 : FS :=
  [(joinP "repo".data (fnameOf ⟨2024, 1, 5⟩ 0), "old".data),
   (joinP "repo".data (fnameOf ⟨2024, 1, 6⟩ 0), "old".data)]

/-- Counterexample to claim C1 as stated: with two dirty entries in the
collection, the first entry's save raises, and `commit` never attempts
the second dirty entry. -/
theorem commit_skips_entries_after_error :
    exEntryC1good.dirty = true ∧
    (commit [exEntryC1bad, exEntryC1good] exFsC1).ok = false ∧
    (commit [exEntryC1bad, exEntryC1good] exFsC1).attempted = [exEntryC1bad] ∧
    exEntryC1good ∉ (commit [exEntryC1bad, exEntryC1good] exFsC1).attempted := by
  decide

/-- Witness instantiating the amended C1 theorem on a clean single-entry
run: `ok` holds and the attempted list is the whole dirty list. -/
theorem commit_stops_at_first_error_witness :
    (commit [exEntryC1good] exFsC1).ok = true ∧
    (commit [exEntryC1good] exFsC1).attempted =
      [exEntryC1good].filter (fun e => e.dirty) :=
  ⟨by decide, (commit_stops_at_first_error [exEntryC1good] exFsC1).2.1 (by decide)⟩

/-! ## Lemmas about `rstrip` -/

theorem dropWhile_head_false {α : Type} {p : α → Bool} {l : List α} {a : α}
    {t : List α} (h : l.dropWhile p = a :: t) : p a = false := by
  induction l with
  | nil => simp at h
  | cons b bs ih =>
    by_cases hb : p b
    · rw [List.dropWhile_cons_of_pos hb] at h
      exact ih h
    · rw [List.dropWhile_cons_of_neg hb] at h
      cases h
      simp at hb
      exact hb

theorem dropWhile_dropWhile {α : Type} (p : α → Bool) (l : List α) :
    (l.dropWhile p).dropWhile p = l.dropWhile p := by
  cases hd : l.dropWhile p with
  | nil => simp
  | cons a t =>
    have h2 : ¬ p a = true := by simp [dropWhile_head_false hd]
    simp [List.dropWhile_cons_of_neg h2]

theorem rstrip_idem (x : List Char) : rstrip (rstrip x) = rstrip x := by
  unfold rstrip
  rw [List.reverse_reverse, dropWhile_dropWhile]

theorem rstrip_append_space {c : Char} (hc : pySpace c = true) (x : List Char) :
    rstrip (x ++ [c]) = rstrip x := by
  unfold rstrip
  rw [List.reverse_append]
  simp [List.dropWhile_cons_of_pos hc]

theorem rstrip_append_nonspace {c : Char} (hc : pySpace c = false)
    (x : List Char) : rstrip (x ++ [c]) = x ++ [c] := by
  unfold rstrip
  rw [List.reverse_append]
  have h2 : ¬ pySpace c = true := by simp [hc]
  simp [List.dropWhile_cons_of_neg h2]

theorem rstrip_mem {c : Char} {x : List Char} (h : c ∈ rstrip x) : c ∈ x := by
  unfold rstrip at h
  rw [List.mem_reverse] at h
  have hs : List.Sublist (x.reverse.dropWhile pySpace) x.reverse :=
    List.dropWhile_sublist _
  exact List.mem_reverse.mp (hs.mem h)

theorem rstrip_shape (x : List Char) :
    rstrip x = [] ∨ ∃ y c, rstrip x = y ++ [c] ∧ pySpace c = false := by
  cases hd : x.reverse.dropWhile pySpace with
  | nil =>
    left
    unfold rstrip
    rw [hd]
    rfl
  | cons a t =>
    right
    refine ⟨t.reverse, a, ?_, dropWhile_head_false hd⟩
    unfold rstrip
    rw [hd]
    simp

theorem rstrip_length_le (x : List Char) : (rstrip x).length ≤ x.length := by
  unfold rstrip
  rw [List.length_reverse]
  calc (x.reverse.dropWhile pySpace).length ≤ x.reverse.length :=
        (List.dropWhile_sublist _).length_le
    _ = x.length := List.length_reverse x

theorem rstrip_fixed_suffix {a b : List Char} (h : rstrip (a ++ b) = a ++ b) :
    rstrip b = b := by
  rcases List.eq_nil_or_concat b with rfl | ⟨y, c, rfl⟩
  · rfl
  · simp only [List.concat_eq_append] at h ⊢
    by_cases hc : pySpace c
    · rw [← List.append_assoc, rstrip_append_space hc] at h
      have := rstrip_length_le (a ++ y)
      rw [h] at this
      simp at this
    · exact rstrip_append_nonspace (by simpa using hc) y

/-! ## Lemmas about `pySplit` / `pyJoin` -/

theorem pySplit_nil (a : Char) : pySplit a [] = [[]] := rfl

theorem pySplit_cons (a c : Char) (cs : List Char) :
    pySplit a (c :: cs) =
      if c = a then [] :: pySplit a cs
      else
        match pySplit a cs with
        | [] => [[c]]
        | l :: ls => (c :: l) :: ls := rfl

theorem pySplit_ne_nil (a : Char) (l : List Char) : pySplit a l ≠ [] := by
  cases l with
  | nil => simp [pySplit_nil]
  | cons c cs =>
    rw [pySplit_cons]
    by_cases h : c = a
    · simp [h]
    · simp only [if_neg h]
      split <;> simp

theorem pyJoin_pySplit (a : Char) (l : List Char) :
    pyJoin a (pySplit a l) = l := by
  induction l with
  | nil => rfl
  | cons c cs ih =>
    rw [pySplit_cons]
    by_cases h : c = a
    · subst h
      simp only [if_pos rfl]
      cases hs : pySplit c cs with
      | nil => exact absurd hs (pySplit_ne_nil c cs)
      | cons l ls =>
        rw [hs] at ih
        cases ls <;> simp_all [pyJoin]
    · simp only [if_neg h]
      cases hs : pySplit a cs with
      | nil => exact absurd hs (pySplit_ne_nil a cs)
      | cons l ls =>
        rw [hs] at ih
        cases ls <;> simp_all [pyJoin]

theorem pySplit_append (a : Char) (x y : List Char) :
    pySplit a (x ++ a :: y) = pySplit a x ++ pySplit a y := by
  induction x with
  | nil =>
    rw [List.nil_append, pySplit_cons, if_pos rfl, pySplit_nil]
    rfl
  | cons c cs ih =>
    rw [List.cons_append, pySplit_cons, pySplit_cons]
    by_cases h : c = a
    · simp only [if_pos h, ih]
      rfl
    · simp only [if_neg h, ih]
      cases hs : pySplit a cs with
      | nil => exact absurd hs (pySplit_ne_nil a cs)
      | cons l ls => simp

theorem not_mem_of_mem_pySplit {a : Char} {l l1 : List Char}
    (h : l1 ∈ pySplit a l) : a ∉ l1 := by
  induction l generalizing l1 with
  | nil =>
    rw [pySplit_nil] at h
    simp at h
    simp [h]
  | cons c cs ih =>
    rw [pySplit_cons] at h
    by_cases hc : c = a
    · simp [hc] at h
      rcases h with rfl | h
      · simp
      · exact ih h
    · simp only [if_neg hc] at h
      cases hs : pySplit a cs with
      | nil => exact absurd hs (pySplit_ne_nil a cs)
      | cons l2 ls =>
        rw [hs] at h
        simp at h
        rcases h with rfl | h
        · intro hmem
          rcases List.mem_cons.mp hmem with rfl | hmem2
          · exact hc rfl
          · exact ih (hs ▸ List.mem_cons_self _ _) hmem2
        · exact ih (hs ▸ List.mem_cons_of_mem _ h)

theorem mem_of_mem_pySplit {a c : Char} {l l1 : List Char}
    (h : l1 ∈ pySplit a l) (hc : c ∈ l1) : c ∈ l := by
  induction l generalizing l1 with
  | nil =>
    rw [pySplit_nil] at h
    simp at h
    subst h
    simp at hc
  | cons b bs ih =>
    rw [pySplit_cons] at h
    by_cases hb : b = a
    · simp [hb] at h
      rcases h with rfl | h
      · simp at hc
      · exact List.mem_cons_of_mem _ (ih h hc)
    · simp only [if_neg hb] at h
      cases hs : pySplit a bs with
      | nil => exact absurd hs (pySplit_ne_nil a bs)
      | cons l2 ls =>
        rw [hs] at h
        simp at h
        rcases h with rfl | h
        · rcases List.mem_cons.mp hc with rfl | hc2
          · exact List.mem_cons_self _ _
          · exact List.mem_cons_of_mem _
              (ih (hs ▸ List.mem_cons_self _ _) hc2)
        · exact List.mem_cons_of_mem _ (ih (hs ▸ List.mem_cons_of_mem _ h) hc)

theorem pySplit_eq_single {a : Char} {l : List Char} (h : a ∉ l) :
    pySplit a l = [l] := by
  induction l with
  | nil => rfl
  | cons c cs ih =>
    simp at h
    rw [pySplit_cons, if_neg (fun he => h.1 he.symm), ih h.2]

theorem pySplit_pyJoin {a : Char} {ls : List (List Char)}
    (h : ∀ l ∈ ls, a ∉ l) (hne : ls ≠ []) : pySplit a (pyJoin a ls) = ls := by
  induction ls with
  | nil => exact absurd rfl hne
  | cons l ls ih =>
    cases ls with
    | nil => exact pySplit_eq_single (h l (List.mem_cons_self _ _))
    | cons l2 ls2 =>
      show pySplit a (l ++ a :: pyJoin a (l2 :: ls2)) = _
      rw [pySplit_append, pySplit_eq_single (h l (List.mem_cons_self _ _)),
        ih (fun x hx => h x (List.mem_cons_of_mem _ hx)) (by simp)]
      rfl

theorem mem_pyJoin {a c : Char} {ls : List (List Char)}
    (h : c ∈ pyJoin a ls) : c = a ∨ ∃ l ∈ ls, c ∈ l := by
  induction ls with
  | nil => simp [pyJoin] at h
  | cons l ls ih =>
    cases ls with
    | nil =>
      right
      exact ⟨l, List.mem_cons_self _ _, h⟩
    | cons l2 ls2 =>
      rw [show pyJoin a (l :: l2 :: ls2) = l ++ a :: pyJoin a (l2 :: ls2) from rfl]
        at h
      rcases List.mem_append.mp h with h | h
      · exact Or.inr ⟨l, List.mem_cons_self _ _, h⟩
      · rcases List.mem_cons.mp h with rfl | h
        · exact Or.inl rfl
        · rcases ih h with h | ⟨l3, h3, hc⟩
          · exact Or.inl h
          · exact Or.inr ⟨l3, List.mem_cons_of_mem _ h3, hc⟩

theorem pySplit_concat_nondelim {a c : Char} (hc : c ≠ a) (x : List Char) :
    ∃ init g, pySplit a x = init ++ [g] ∧
      pySplit a (x ++ [c]) = init ++ [g ++ [c]] := by
  induction x with
  | nil =>
    refine ⟨[], [], by simp [pySplit_nil], ?_⟩
    rw [List.nil_append, pySplit_cons, if_neg hc, pySplit_nil]
    rfl
  | cons d x ih =>
    obtain ⟨init, g, h1, h2⟩ := ih
    by_cases hd : d = a
    · subst hd
      refine ⟨[] :: init, g, ?_, ?_⟩
      · rw [pySplit_cons, if_pos rfl, h1]
        rfl
      · rw [List.cons_append, pySplit_cons, if_pos rfl, h2]
        rfl
    · cases init with
      | nil =>
        refine ⟨[], d :: g, ?_, ?_⟩
        · rw [pySplit_cons, if_neg hd, h1]
          rfl
        · rw [List.cons_append, pySplit_cons, if_neg hd, h2]
          simp
      | cons i0 init1 =>
        refine ⟨(d :: i0) :: init1, g, ?_, ?_⟩
        · rw [pySplit_cons, if_neg hd, h1]
          rfl
        · rw [List.cons_append, pySplit_cons, if_neg hd, h2]
          rfl

/-- Right-stripping a text whose lines are all right-stripped only
removes whole trailing blank lines: every line of the result is still
right-stripped. -/
theorem lines_rstripped_of_rstrip {y : List Char}
    (h : ∀ l ∈ pySplit '\n' y, rstrip l = l) :
    ∀ l ∈ pySplit '\n' (rstrip y), rstrip l = l := by
  induction y using List.reverseRecOn with
  | nil =>
    intro l hl
    have h0 : rstrip ([] : List Char) = [] := rfl
    rw [h0, pySplit_nil] at hl
    simp at hl
    subst hl
    rfl
  | append_singleton y c ih =>
    by_cases hsp : pySpace c
    · by_cases hnl : c = '\n'
      · subst hnl
        have hlines : pySplit '\n' (y ++ ['\n']) =
            pySplit '\n' y ++ [[]] := by
          rw [show (y ++ ['\n'] : List Char) = y ++ '\n' :: [] from rfl,
            pySplit_append, pySplit_nil]
        rw [rstrip_append_space hsp]
        refine ih ?_
        intro l hl
        exact h l (by rw [hlines]; exact List.mem_append_left _ hl)
      · exfalso
        obtain ⟨init, g, -, h2⟩ := pySplit_concat_nondelim hnl y
        have hmem : g ++ [c] ∈ pySplit '\n' (y ++ [c]) := by
          rw [h2]
          simp
        have hfix := h _ hmem
        rw [rstrip_append_space hsp] at hfix
        have := rstrip_length_le g
        rw [hfix] at this
        simp at this
    · intro l hl
      rw [rstrip_append_nonspace (by simpa using hsp)] at hl
      exact h l hl

/-! ## The three stability facts of `sanitise_entry`, and idempotence -/

theorem sanitise_no_cr (t : List Char) : '\r' ∉ sanitise_entry t := by
  unfold sanitise_entry
  intro hmem
  rcases List.mem_append.mp hmem with hmem | hmem
  · have h2 := rstrip_mem hmem
    rcases mem_pyJoin h2 with h3 | ⟨l, hl, h4⟩
    · exact absurd h3 (by decide)
    · obtain ⟨l0, hl0, rfl⟩ := List.mem_map.mp hl
      have h5 := mem_of_mem_pySplit hl0 (rstrip_mem h4)
      rw [List.mem_filter] at h5
      simp at h5
  · simp at hmem

theorem sanitise_lines_rstripped (t : List Char) :
    ∀ l ∈ pySplit '\n' (sanitise_entry t), rstrip l = l := by
  unfold sanitise_entry
  intro l hl
  rw [show rstrip (pyJoin '\n' (List.map rstrip
        (pySplit '\n' (t.filter (fun c => c ≠ '\r'))))) ++ ['\n'] =
      rstrip (pyJoin '\n' (List.map rstrip
        (pySplit '\n' (t.filter (fun c => c ≠ '\r'))))) ++ '\n' :: [] from rfl,
    pySplit_append, pySplit_nil] at hl
  rcases List.mem_append.mp hl with hl | hl
  · refine lines_rstripped_of_rstrip ?_ l hl
    intro l2 hl2
    have hnodelim : ∀ m ∈ List.map rstrip
        (pySplit '\n' (t.filter (fun c => c ≠ '\r'))), '\n' ∉ m := by
      intro m hm
      obtain ⟨m0, hm0, rfl⟩ := List.mem_map.mp hm
      intro hmem
      exact not_mem_of_mem_pySplit hm0 (rstrip_mem hmem)
    rw [pySplit_pyJoin hnodelim (by simp [pySplit_ne_nil])] at hl2
    obtain ⟨m0, -, rfl⟩ := List.mem_map.mp hl2
    exact rstrip_idem m0
  · simp at hl
    subst hl
    rfl

theorem sanitise_trailing (t : List Char) :
    rstrip (sanitise_entry t) ++ ['\n'] = sanitise_entry t := by
  unfold sanitise_entry
  rw [rstrip_append_space (by decide), rstrip_idem]

/-- Any text satisfying the three stability facts is a fixed point of
`sanitise_entry`. -/
theorem sanitise_fixed {w : List Char} (h1 : '\r' ∉ w)
    (h2 : ∀ l ∈ pySplit '\n' w, rstrip l = l)
    (h3 : rstrip w ++ ['\n'] = w) : sanitise_entry w = w := by
  unfold sanitise_entry
  dsimp only
  have hf : w.filter (fun c => c ≠ '\r') = w := by
    rw [List.filter_eq_self]
    intro c hc
    simp
    exact fun he => h1 (he ▸ hc)
  rw [hf]
  have hm : List.map rstrip (pySplit '\n' w) = pySplit '\n' w := by
    rw [show pySplit '\n' w = List.map id (pySplit '\n' w) from
        (List.map_id _).symm]
    rw [List.map_map]
    refine List.map_congr_left ?_
    intro l hl
    simp
    exact h2 l (by simpa using hl)
  rw [hm, pyJoin_pySplit, h3]

/-- Claim C9 (confirmed): the pre-parse normalization (strip carriage
returns, right-trim every line, collapse trailing blank lines/whitespace
to one trailing newline) is idempotent — applying it twice yields the
same result as applying it once. -/
theorem sanitise_entry_idempotent (t : List Char) :
    sanitise_entry (sanitise_entry t) = sanitise_entry t :=
  sanitise_fixed (sanitise_no_cr t) (sanitise_lines_rstripped t)
    (sanitise_trailing t)

/-! ## Decimal rendering: `natToDec`, `pad2`, `decDigits` -/

def digitChars : List Char := ['0', '1', '2', '3', '4', '5', '6', '7', '8', '9']

theorem digitChar_mem (n : Nat) : digitChar n ∈ digitChars := by
  unfold digitChar
  split <;> decide

theorem natToDecAux_zero (fuel : Nat) : natToDecAux fuel 0 = [] := by
  cases fuel <;> rfl

theorem mem_natToDecAux {c : Char} {fuel n : Nat}
    (h : c ∈ natToDecAux fuel n) : c ∈ digitChars := by
  induction fuel generalizing n with
  | zero => simp [natToDecAux] at h
  | succ fuel ih =>
    cases n with
    | zero => simp [natToDecAux] at h
    | succ n =>
      rw [show natToDecAux (fuel + 1) (n + 1) =
          natToDecAux fuel ((n + 1) / 10) ++ [digitChar ((n + 1) % 10)] from rfl]
        at h
      rcases List.mem_append.mp h with h | h
      · exact ih h
      · simp at h
        exact h ▸ digitChar_mem _
  
theorem mem_natToDec {c : Char} {n : Nat} (h : c ∈ natToDec n) :
    c ∈ digitChars := by
  unfold natToDec at h
  split at h
  · simp at h
    simp [h, digitChars]
  · exact mem_natToDecAux h

theorem mem_pad2 {c : Char} {n : Nat} (h : c ∈ pad2 n) : c ∈ digitChars := by
  unfold pad2 at h
  split at h
  · simp at h
    rcases h with rfl | rfl
    · decide
    · exact digitChar_mem _
  · exact mem_natToDec h

theorem digit_isDigit {c : Char} (h : c ∈ digitChars) : c.isDigit = true := by
  fin_cases h <;> decide

theorem digitChar_val {k : Nat} (hk : k < 10) : (digitChar k).toNat - 48 = k := by
  interval_cases k <;> decide

theorem natToDecAux_concat {fuel n : Nat} (h0 : 0 < n) (h1 : n ≤ fuel) :
    ∃ y c, natToDecAux fuel n = y ++ [c] ∧ c ∈ digitChars := by
  cases fuel with
  | zero => omega
  | succ fuel =>
    cases n with
    | zero => omega
    | succ n =>
      exact ⟨natToDecAux fuel ((n + 1) / 10), digitChar ((n + 1) % 10), rfl,
        digitChar_mem _⟩

theorem natToDec_concat (n : Nat) :
    ∃ y c, natToDec n = y ++ [c] ∧ c ∈ digitChars := by
  unfold natToDec
  split
  · exact ⟨[], '0', rfl, by decide⟩
  · exact natToDecAux_concat (by omega) (le_refl n)

theorem natToDec_ne_nil (n : Nat) : natToDec n ≠ [] := by
  obtain ⟨y, c, h, -⟩ := natToDec_concat n
  simp [h]

/-- Folding the digit-accumulator over `natToDecAux fuel n` recovers `n`
on top of the shifted accumulator. -/
theorem foldl_natToDecAux {fuel : Nat} : ∀ {n : Nat}, n ≤ fuel → ∀ a : Nat,
    List.foldl (fun a c => 10 * a + (c.toNat - 48)) a (natToDecAux fuel n) =
      a * 10 ^ (natToDecAux fuel n).length + n := by
  induction fuel with
  | zero =>
    intro n hn a
    have : n = 0 := by omega
    subst this
    simp [natToDecAux]
  | succ fuel ih =>
    intro n hn a
    cases n with
    | zero => simp [natToDecAux]
    | succ n =>
      rw [show natToDecAux (fuel + 1) (n + 1) =
          natToDecAux fuel ((n + 1) / 10) ++ [digitChar ((n + 1) % 10)] from rfl]
      rw [List.foldl_append]
      have hle : (n + 1) / 10 ≤ fuel := by omega
      rw [ih hle a]
      simp only [List.foldl_cons, List.foldl_nil, List.length_append,
        List.length_singleton]
      rw [digitChar_val (by omega)]
      rw [pow_succ]
      have : 10 * ((n + 1) / 10) + (n + 1) % 10 = n + 1 := by omega
      ring_nf
      omega

theorem decDigits_natToDec (n : Nat) : decDigits (natToDec n) = n := by
  unfold natToDec decDigits
  split
  · simp_all
  · rw [foldl_natToDecAux (le_refl n) 0]
    simp

theorem pyInt_natToDec (n : Nat) : pyInt (natToDec n) = some n := by
  unfold pyInt
  rw [if_pos, decDigits_natToDec]
  refine ⟨natToDec_ne_nil n, ?_⟩
  rw [List.all_eq_true]
  exact fun c hc => digit_isDigit (mem_natToDec hc)

theorem decDigits_pad2 (n : Nat) : decDigits (pad2 n) = n := by
  unfold pad2
  split
  · have h10 : n < 10 := by omega
    show decDigits ['0', digitChar n] = n
    unfold decDigits
    simp only [List.foldl_cons, List.foldl_nil]
    have h0 : 10 * 0 + (('0' : Char).toNat - 48) = 0 := by decide
    rw [h0, digitChar_val h10]
    omega
  · exact decDigits_natToDec n

theorem pyInt_pad2 (n : Nat) : pyInt (pad2 n) = some n := by
  unfold pyInt
  rw [if_pos, decDigits_pad2 n]
  constructor
  · unfold pad2
    split <;> simp [natToDec_ne_nil]
  · rw [List.all_eq_true]
    exact fun c hc => digit_isDigit (mem_pad2 hc)

/-- Digit-count bounds for `natToDecAux`. -/
theorem natToDecAux_bounds {fuel : Nat} : ∀ {n : Nat}, 0 < n → n ≤ fuel →
    n < 10 ^ (natToDecAux fuel n).length ∧
    10 ^ ((natToDecAux fuel n).length - 1) ≤ n := by
  induction fuel with
  | zero => omega
  | succ fuel ih =>
    intro n h0 hn
    cases n with
    | zero => omega
    | succ n =>
      rw [show natToDecAux (fuel + 1) (n + 1) =
          natToDecAux fuel ((n + 1) / 10) ++ [digitChar ((n + 1) % 10)] from rfl]
      simp only [List.length_append, List.length_singleton]
      by_cases hsmall : n + 1 < 10
      · have hq : (n + 1) / 10 = 0 := by omega
        rw [hq, natToDecAux_zero]
        simp
        omega
      · have hq0 : 0 < (n + 1) / 10 := by omega
        have hqf : (n + 1) / 10 ≤ fuel := by omega
        obtain ⟨hub, hlb⟩ := ih hq0 hqf
        set L := (natToDecAux fuel ((n + 1) / 10)).length with hL
        have hL1 : 1 ≤ L := by
          by_contra hc
          have : L = 0 := by omega
          rw [this] at hub
          simp at hub
          omega
        constructor
        · have : n + 1 ≤ 10 * ((n + 1) / 10) + 9 := by omega
          calc n + 1 ≤ 10 * ((n + 1) / 10) + 9 := this
            _ < 10 * 10 ^ L := by omega
            _ = 10 ^ (L + 1) := by rw [pow_succ]; ring
        · have h10 : 10 ^ L = 10 * 10 ^ (L - 1) := by
            rw [← pow_succ']
            congr 1
            omega
          calc 10 ^ (L + 1 - 1) = 10 ^ L := by congr 1
            _ = 10 * 10 ^ (L - 1) := h10
            _ ≤ 10 * ((n + 1) / 10) := by omega
            _ ≤ n + 1 := by omega

theorem natToDec_length_four {n : Nat} (h1 : 1000 ≤ n) (h2 : n ≤ 9999) :
    (natToDec n).length = 4 := by
  unfold natToDec
  rw [if_neg (by omega)]
  obtain ⟨hub, hlb⟩ := natToDecAux_bounds (show 0 < n by omega) (le_refl n)
  set L := (natToDecAux n n).length
  by_contra hne
  rcases Nat.lt_or_ge L 4 with hlt | hge
  · have : (10 : Nat) ^ L ≤ 10 ^ 3 := Nat.pow_le_pow_right (by omega) (by omega)
    simp at this
    omega
  · have h5 : 5 ≤ L + 1 := by omega
    have : (10 : Nat) ^ 4 ≤ 10 ^ (L - 1) := Nat.pow_le_pow_right (by omega) (by omega)
    simp at this
    omega

theorem natToDec_length_two {n : Nat} (h1 : 10 ≤ n) (h2 : n ≤ 99) :
    (natToDec n).length = 2 := by
  unfold natToDec
  rw [if_neg (by omega)]
  obtain ⟨hub, hlb⟩ := natToDecAux_bounds (show 0 < n by omega) (le_refl n)
  set L := (natToDecAux n n).length
  by_contra hne
  rcases Nat.lt_or_ge L 2 with hlt | hge
  · have : (10 : Nat) ^ L ≤ 10 ^ 1 := Nat.pow_le_pow_right (by omega) (by omega)
    simp at this
    omega
  · have : (10 : Nat) ^ 2 ≤ 10 ^ (L - 1) := Nat.pow_le_pow_right (by omega) (by omega)
    simp at this
    omega

theorem pad2_length {n : Nat} (hn : n ≤ 99) : (pad2 n).length = 2 := by
  unfold pad2
  split
  · rfl
  · exact natToDec_length_two (by omega) hn

/-! ## Claim C7: index allocation -/

/-- What a successful probe means: the returned index is at or after the
start, its path is free, and every index in between is occupied. -/
theorem probeFrom_some {fs : FS} {f : Nat → List Char} :
    ∀ {i fuel r : Nat}, probeFrom fs f i fuel = some r →
      i ≤ r ∧ fsHas fs (f r) = false ∧
      ∀ j, i ≤ j → j < r → fsHas fs (f j) = true := by
  intro i fuel
  induction fuel generalizing i with
  | zero => intro r h; simp [probeFrom] at h
  | succ fuel ih =>
    intro r h
    rw [show probeFrom fs f i (fuel + 1) =
        (if fsHas fs (f i) then probeFrom fs f (i + 1) fuel else some i) from rfl]
      at h
    by_cases hocc : fsHas fs (f i)
    · rw [if_pos hocc] at h
      obtain ⟨h1, h2, h3⟩ := ih h
      refine ⟨by omega, h2, ?_⟩
      intro j hij hjr
      rcases Nat.eq_or_lt_of_le hij with rfl | hlt
      · exact hocc
      · exact h3 j (by omega) hjr
    · rw [if_neg hocc] at h
      cases h
      exact ⟨le_refl i, by simpa using hocc, fun j h1 h2 => by omega⟩

theorem mem_digitChars_ne {c : Char} (h : c ∈ digitChars) :
    c ≠ '/' ∧ c ≠ '.' ∧ c ≠ '-' ∧ c ≠ '\n' ∧ c ≠ '\r' ∧ c ≠ ':' ∧
    pySpace c = false ∧ c.isDigit = true := by
  fin_cases h <;> decide

/-- `os.path.split` on a path whose head ends in a non-slash character
and whose final component is slash-free. -/
theorem pySplitLastSlash_concat {x t : List Char}
    (ht : ∀ c ∈ t, c ≠ '/') {y : List Char} {c : Char} (hx : x = y ++ [c])
    (hc : c ≠ '/') : pySplitLastSlash (x ++ '/' :: t) = (x, t) := by
  unfold pySplitLastSlash
  dsimp only
  have hrev : (x ++ '/' :: t).reverse = t.reverse ++ '/' :: x.reverse := by
    simp
  have hpos : ∀ a ∈ t.reverse, (fun c => decide (c ≠ '/')) a = true := by
    intro a ha
    simp
    exact ht a (List.mem_reverse.mp ha)
  have hslash : (fun c => decide (c ≠ '/')) '/' = false := by decide
  have htake : ((x ++ '/' :: t).reverse.takeWhile (fun c => c ≠ '/')).reverse = t := by
    rw [hrev, List.takeWhile_append_of_pos hpos,
      List.takeWhile_cons_of_neg (by simp)]
    simp
  have hdrop : ((x ++ '/' :: t).reverse.dropWhile (fun c => c ≠ '/')).reverse =
      x ++ ['/'] := by
    rw [hrev, List.dropWhile_append_of_pos hpos,
      List.dropWhile_cons_of_neg (by simp)]
    simp
  rw [htake, hdrop]
  rw [if_pos]
  · congr 1
    rw [List.reverse_append]
    simp only [List.reverse_cons, List.reverse_nil, List.nil_append,
      List.singleton_append]
    rw [List.dropWhile_cons_of_pos (by decide)]
    subst hx
    rw [List.reverse_append]
    simp only [List.reverse_cons, List.reverse_nil, List.nil_append,
      List.singleton_append]
    rw [List.dropWhile_cons_of_neg (by simp [hc])]
    simp
  · constructor
    · simp
    · rw [List.any_eq_true]
      refine ⟨c, ?_, by simp [hc]⟩
      subst hx
      simp

/-- `os.path.split` on a slash-free path gives an empty head. -/
theorem pySplitLastSlash_no_slash {t : List Char} (ht : ∀ c ∈ t, c ≠ '/') :
    pySplitLastSlash t = ([], t) := by
  unfold pySplitLastSlash
  dsimp only
  have htake : t.reverse.takeWhile (fun c => c ≠ '/') = t.reverse := by
    rw [List.takeWhile_eq_self_iff]
    intro a ha
    simp
    exact ht a (List.mem_reverse.mp ha)
  have hdrop : t.reverse.dropWhile (fun c => c ≠ '/') = [] := by
    rw [List.dropWhile_eq_nil_iff]
    intro a ha
    simp
    exact ht a (List.mem_reverse.mp ha)
  rw [htake, hdrop]
  simp

/-- `splitext` strips a final `.txt` extension. -/
theorem splitextRoot_txt {x : List Char} (hne : ∃ c ∈ x, c ≠ '.') :
    splitextRoot (x ++ ".txt".data) = x := by
  unfold splitextRoot
  dsimp only
  have hrev : (x ++ ".txt".data).reverse = 't' :: 'x' :: 't' :: '.' :: x.reverse := by
    rw [List.reverse_append]
    rfl
  rw [hrev]
  have htake : List.takeWhile (fun c => c ≠ '.')
      ('t' :: 'x' :: 't' :: '.' :: x.reverse) = ['t', 'x', 't'] := by
    rw [List.takeWhile_cons_of_pos (by decide),
      List.takeWhile_cons_of_pos (by decide),
      List.takeWhile_cons_of_pos (by decide),
      List.takeWhile_cons_of_neg (by decide)]
  have hdrop : List.dropWhile (fun c => c ≠ '.')
      ('t' :: 'x' :: 't' :: '.' :: x.reverse) = '.' :: x.reverse := by
    rw [List.dropWhile_cons_of_pos (by decide),
      List.dropWhile_cons_of_pos (by decide),
      List.dropWhile_cons_of_pos (by decide),
      List.dropWhile_cons_of_neg (by decide)]
  rw [htake, hdrop]
  rw [if_neg (by simp)]
  dsimp only [List.tail_cons]
  rw [if_neg, List.reverse_reverse]
  obtain ⟨c, hc, hcne⟩ := hne
  rw [List.all_eq_true]
  intro hall
  have := hall c (List.mem_reverse.mpr hc)
  simp at this
  exact hcne this

/-- The record-file base name `DD-i.txt` of `fnameOf`. -/
def basePart (b : Date) (r : Nat) : List Char :=
  pad2 b.day ++ '-' :: natToDec r ++ ".txt".data

theorem basePart_no_slash (b : Date) (r : Nat) : ∀ c ∈ basePart b r, c ≠ '/' := by
  intro c hc
  unfold basePart at hc
  rcases List.mem_append.mp hc with h | h
  · rcases List.mem_append.mp h with h | h
    · exact (mem_digitChars_ne (mem_pad2 h)).1
    · rcases List.mem_cons.mp h with rfl | h
      · decide
      · exact (mem_digitChars_ne (mem_natToDec h)).1
  · fin_cases h <;> decide

/-- Ends-in-a-digit decomposition of `pad2`. -/
theorem pad2_concat (n : Nat) : ∃ y c, pad2 n = y ++ [c] ∧ c ∈ digitChars := by
  unfold pad2
  split
  · exact ⟨['0'], digitChar n, rfl, digitChar_mem n⟩
  · exact natToDec_concat n

/-- `join(dir, fname)` decomposes as a head ending in a digit, a slash,
and the `DD-i.txt` base component, for any directory. -/
theorem joinP_fname_decomp (dir : List Char) (b : Date) (r : Nat) :
    ∃ A yA cA, joinP dir (fnameOf b r) = A ++ '/' :: basePart b r ∧
      A = yA ++ [cA] ∧ cA ∈ digitChars := by
  obtain ⟨ym, cm, hym, hcm⟩ := pad2_concat b.month
  have hfname : fnameOf b r =
      (natToDec b.year ++ '/' :: pad2 b.month) ++ '/' :: basePart b r := by
    unfold fnameOf dateSlash basePart
    simp
  have hhead : (fnameOf b r).head? ≠ some '/' := by
    cases hnd : natToDec b.year with
    | nil => exact absurd hnd (natToDec_ne_nil b.year)
    | cons c1 r1 =>
      have hc1 : c1 ∈ digitChars :=
        mem_natToDec (by rw [hnd]; exact List.mem_cons_self _ _)
      unfold fnameOf dateSlash
      rw [hnd]
      simp
      intro hc
      exact (mem_digitChars_ne hc1).1 hc
  unfold joinP
  rw [if_neg hhead]
  by_cases hdir : dir = []
  · rw [if_pos hdir, hfname]
    exact ⟨natToDec b.year ++ '/' :: pad2 b.month, natToDec b.year ++ '/' :: ym,
      cm, rfl, by rw [hym]; simp, hcm⟩
  · rw [if_neg hdir]
    by_cases hlast : dir.getLast? = some '/'
    · rw [if_pos hlast, hfname]
      refine ⟨dir ++ (natToDec b.year ++ '/' :: pad2 b.month),
        dir ++ (natToDec b.year ++ '/' :: ym), cm, by simp, by rw [hym]; simp, hcm⟩
    · rw [if_neg hlast, hfname]
      refine ⟨dir ++ '/' :: (natToDec b.year ++ '/' :: pad2 b.month),
        dir ++ '/' :: (natToDec b.year ++ '/' :: ym), cm, by simp, by rw [hym]; simp,
        hcm⟩

/-- `set_filename` on a freshly allocated `join(dir, fname(begin, r))`
path: it records the path and re-derives the same index `r`. -/
theorem set_filename_alloc (e : LogEntry) (dir : List Char) (b : Date) (r : Nat) :
    ∃ fd, LogEntry.set_filename e (joinP dir (fnameOf b r)) =
      some { e with filename := some (joinP dir (fnameOf b r)),
                    filename_date := fd, index := r } := by
  obtain ⟨A, yA, cA, hP, hA, hcA⟩ := joinP_fname_decomp dir b r
  unfold LogEntry.set_filename
  dsimp only
  rw [hP, pySplitLastSlash_concat (basePart_no_slash b r) hA
    (mem_digitChars_ne hcA).1]
  have hbase : splitextRoot (basePart b r) = pad2 b.day ++ '-' :: natToDec r := by
    have : basePart b r = (pad2 b.day ++ '-' :: natToDec r) ++ ".txt".data := by
      unfold basePart
      simp
    rw [this, splitextRoot_txt ⟨'-', by simp, by decide⟩]
  have hsplit : pySplit '-' (splitextRoot (basePart b r)) =
      [pad2 b.day, natToDec r] := by
    rw [hbase]
    have hjoin : pad2 b.day ++ '-' :: natToDec r =
        pyJoin '-' [pad2 b.day, natToDec r] := rfl
    rw [hjoin, pySplit_pyJoin ?_ (by simp)]
    intro l hl
    simp at hl
    rcases hl with rfl | rfl
    · intro hmem
      exact (mem_digitChars_ne (mem_pad2 hmem)).2.2.1 rfl
    · intro hmem
      exact (mem_digitChars_ne (mem_natToDec hmem)).2.2.1 rfl
  rw [hsplit]
  dsimp only
  rw [pyInt_pad2 b.day, pyInt_natToDec r]
  exact ⟨_, rfl⟩

/-- Claim C7 (confirmed): a successful `save()` of an entry without a
source path assigns the smallest non-negative sequence index whose
record-file path does not already exist on disk (linear probe from 0)
and records that path as the entry's filename. -/
theorem save_allocates_least_free_index {e : LogEntry} {fs : FS}
    {e1 : LogEntry} {fs1 : FS}
    (h0 : e.removeFlag = false) (h1 : e.filename = none)
    (hs : e.save fs = some (e1, fs1)) :
    e1.filename = some (joinP e.directory (fnameOf e.fields.begin e1.index)) ∧
    fsHas fs (joinP e.directory (fnameOf e.fields.begin e1.index)) = false ∧
    ∀ j, j < e1.index →
      fsHas fs (joinP e.directory (fnameOf e.fields.begin j)) = true := by
  have hsave : saveAlloc e fs = some (e1, fs1) := by
    unfold LogEntry.save at hs
    rw [if_neg (by simp [h0])] at hs
    cases hfd : e.filename_date with
    | none =>
      rw [hfd] at hs
      exact hs
    | some fd =>
      rw [hfd] at hs
      dsimp only at hs
      by_cases hb : e.fields.begin ≠ fd
      · rw [if_pos hb] at hs
        split at hs
        · simp at hs
        · rw [h1] at hs
          simp at hs
      · rw [if_neg hb] at hs
        exact hs
  unfold saveAlloc at hsave
  rw [h1] at hsave
  dsimp only at hsave
  cases hprobe : probeFrom fs
      (fun i => joinP e.directory (fnameOf e.fields.begin i)) 0 (fs.length + 1) with
  | none =>
    rw [hprobe] at hsave
    simp at hsave
  | some r =>
    rw [hprobe] at hsave
    dsimp only at hsave
    obtain ⟨hr0, hfree, hbelow⟩ := probeFrom_some hprobe
    obtain ⟨fd, hset⟩ := set_filename_alloc { e with index := r }
      e.directory e.fields.begin r
    rw [h1] at hset
    rw [hset] at hsave
    unfold saveWrite at hsave
    dsimp only at hsave
    cases htt : toText e.fields with
    | none =>
      rw [htt] at hsave
      simp at hsave
    | some s =>
      rw [htt] at hsave
      dsimp only at hsave
      split at hsave
      · simp at hsave
      next fs2 hrm =>
        injection hsave with hAB
        injection hAB with hA hB
        subst hA
        exact ⟨rfl, hfree, fun j hj => hbelow j (by omega) hj⟩

/-- Fields shared by the concrete C7 entries. -/
def exFieldsC7 : Fields :=
  ⟨⟨2024, 1, 5⟩, none, [("TOPIC".data, some "Test".data), ("APPENDIX".data, none)],
   "Hello\n".data⟩

/-- A freshly created entry (no source path) for 2024-01-05. -/
def exEntryC7new : LogEntry :=
  ⟨false, none, none, false, "repo".data, [], [], 0, exFieldsC7, []⟩

def serC7 : List Char :=
  "BEGIN: 2024-01-05\nEND: None\nTOPIC: Test\nAPPENDIX: None\n\nHello\n".data

def p0C7 : List Char := joinP "repo".data (fnameOf ⟨2024, 1, 5⟩ 0)

def p1C7 : List Char := joinP "repo".data (fnameOf ⟨2024, 1, 5⟩ 1)

def exEntryC7a : LogEntry :=
  ⟨false, some p0C7, some ⟨2024, 1, 5⟩, false, "repo".data, [], [], 0, exFieldsC7, []⟩

def exFsC7a : FS := [(p0C7, serC7)]

def exEntryC7b : LogEntry :=
  ⟨false, some p1C7, some ⟨2024, 1, 5⟩, false, "repo".data, [], [], 1, exFieldsC7, []⟩

def exFsC7b : FS := [(p0C7, serC7), (p1C7, serC7)]

/-- A fresh entry saved against a disk already holding an index-0 file
for its date. -/
def exEntryC7 : LogEntry :=
  ⟨false, none, none, false, "repo".data, [], [], 0, exFieldsC7, []⟩

def exFsC7 : FS := [(p0C7, "x".data)]

def exEntryC7res : LogEntry :=
  ⟨false, some p1C7, some ⟨2024, 1, 5⟩, false, "repo".data, [], [], 1, exFieldsC7, []⟩

def exFsC7res : FS := [(p0C7, "x".data), (p1C7, serC7)]

/-- Claim C7 (confirmed): for every entry without a source path, a
successful `save()` assigns the smallest non-negative sequence index
whose record-file path does not already exist on disk, probing linearly
from 0; in particular, creating two entries with the same begin date on
an empty date and committing both yields two distinct files with indices
0 and 1 in creation order. -/
theorem save_assigns_smallest_free_index :
    (∀ (e : LogEntry) (fs : FS) (e1 : LogEntry) (fs1 : FS),
      e.removeFlag = false → e.filename = none → e.save fs = some (e1, fs1) →
      e1.filename = some (joinP e.directory (fnameOf e.fields.begin e1.index)) ∧
      fsHas fs (joinP e.directory (fnameOf e.fields.begin e1.index)) = false ∧
      ∀ j, j < e1.index →
        fsHas fs (joinP e.directory (fnameOf e.fields.begin j)) = true) ∧
    (exEntryC7new.save [] = some (exEntryC7a, exFsC7a) ∧ exEntryC7a.index = 0 ∧
     exEntryC7new.save exFsC7a = some (exEntryC7b, exFsC7b) ∧
     exEntryC7b.index = 1 ∧ exEntryC7a.filename ≠ exEntryC7b.filename) :=
  ⟨fun _ _ _ _ h0 h1 hs => save_allocates_least_free_index h0 h1 hs,
   by decide, by decide, by decide, by decide, by decide⟩

/-- Witness for C7: a fresh entry saved onto a disk whose index-0 file
already exists receives index 1 (the smallest free index). -/
theorem save_assigns_smallest_free_index_witness :
    exEntryC7.removeFlag = false ∧ exEntryC7.filename = none ∧
    exEntryC7.save exFsC7 = some (exEntryC7res, exFsC7res) ∧
    exEntryC7res.index = 1 ∧
    (exEntryC7res.filename =
        some (joinP exEntryC7.directory
          (fnameOf exEntryC7.fields.begin exEntryC7res.index)) ∧
     fsHas exFsC7 (joinP exEntryC7.directory
       (fnameOf exEntryC7.fields.begin exEntryC7res.index)) = false ∧
     ∀ j, j < exEntryC7res.index →
       fsHas exFsC7 (joinP exEntryC7.directory
         (fnameOf exEntryC7.fields.begin j)) = true) :=
  ⟨by decide, by decide, by decide, by decide,
   save_assigns_smallest_free_index.1 exEntryC7 exFsC7 exEntryC7res exFsC7res
     (by decide) (by decide) (by decide)⟩

/-! ## Claim C4: serialize header order -/

theorem pySplit_line_cons {L rest : List Char} (hL : '\n' ∉ L) :
    pySplit '\n' (L ++ '\n' :: rest) = L :: pySplit '\n' rest := by
  rw [pySplit_append, pySplit_eq_single hL]
  rfl

theorem pySplit_delim_cons (rest : List Char) :
    pySplit '\n' ('\n' :: rest) = [] :: pySplit '\n' rest := by
  rw [pySplit_cons, if_pos rfl]

theorem format_ymd_no_nl (o : Option Date) : '\n' ∉ format_ymd o := by
  cases o with
  | none => decide
  | some d =>
    unfold format_ymd
    intro h
    rcases List.mem_append.mp h with h | h
    · rcases List.mem_append.mp h with h | h
      · exact (mem_digitChars_ne (mem_natToDec h)).2.2.2.1 rfl
      · rcases List.mem_cons.mp h with h | h
        · exact absurd h (by decide)
        · exact (mem_digitChars_ne (mem_pad2 h)).2.2.2.1 rfl
    · rcases List.mem_cons.mp h with h | h
      · exact absurd h (by decide)
      · exact (mem_digitChars_ne (mem_pad2 h)).2.2.2.1 rfl

/-- Claim C4 (amended): serialize emits exactly the four header lines in
the order `BEGIN`, `END`, `TOPIC`, `APPENDIX`, then a blank line, then
the body verbatim — no `MEDIA` lines are emitted for attachments. -/
theorem serialize_line_order (f : Fields) (tv av : Option (List Char))
    (htv : dlookup "TOPIC".data f.headers = some tv)
    (hav : dlookup "APPENDIX".data f.headers = some av)
    (hnt : '\n' ∉ format_defval tv) (hna : '\n' ∉ format_defval av) :
    ∃ s, toText f = some s ∧
      pySplit '\n' s =
        ["BEGIN: ".data ++ format_ymd (some f.begin),
         "END: ".data ++ format_ymd f.end_,
         "TOPIC: ".data ++ format_defval tv,
         "APPENDIX: ".data ++ format_defval av,
         []] ++ pySplit '\n' f.content := by
  have htext : toText f =
      some ("BEGIN: ".data ++ format_ymd (some f.begin) ++
        '\n' :: "END: ".data ++ format_ymd f.end_ ++
        '\n' :: "TOPIC: ".data ++ format_defval tv ++
        '\n' :: "APPENDIX: ".data ++ format_defval av ++
        '\n' :: '\n' :: f.content) := by
    unfold toText
    rw [htv, hav]
  refine ⟨_, htext, ?_⟩
  have hshape : "BEGIN: ".data ++ format_ymd (some f.begin) ++
      '\n' :: "END: ".data ++ format_ymd f.end_ ++
      '\n' :: "TOPIC: ".data ++ format_defval tv ++
      '\n' :: "APPENDIX: ".data ++ format_defval av ++
      '\n' :: '\n' :: f.content =
      ("BEGIN: ".data ++ format_ymd (some f.begin)) ++
        '\n' :: (("END: ".data ++ format_ymd f.end_) ++
          '\n' :: (("TOPIC: ".data ++ format_defval tv) ++
            '\n' :: (("APPENDIX: ".data ++ format_defval av) ++
              '\n' :: ('\n' :: f.content)))) := by
    simp [List.append_assoc]
  rw [hshape]
  have h1 : '\n' ∉ "BEGIN: ".data ++ format_ymd (some f.begin) := by
    intro h
    rcases List.mem_append.mp h with h | h
    · exact absurd h (by decide)
    · exact format_ymd_no_nl _ h
  have h2 : '\n' ∉ "END: ".data ++ format_ymd f.end_ := by
    intro h
    rcases List.mem_append.mp h with h | h
    · exact absurd h (by decide)
    · exact format_ymd_no_nl _ h
  have h3 : '\n' ∉ "TOPIC: ".data ++ format_defval tv := by
    intro h
    rcases List.mem_append.mp h with h | h
    · exact absurd h (by decide)
    · exact hnt h
  have h4 : '\n' ∉ "APPENDIX: ".data ++ format_defval av := by
    intro h
    rcases List.mem_append.mp h with h | h
    · exact absurd h (by decide)
    · exact hna h
  rw [pySplit_line_cons h1, pySplit_line_cons h2, pySplit_line_cons h3,
    pySplit_line_cons h4, pySplit_delim_cons]
  rfl

/-- Entry with one attachment, used to refute C4 as stated. -/
def exEntryC4 : LogEntry :=
  ⟨false, none, none, false, "repo".data, [], [], 0,
   ⟨⟨2024, 1, 5⟩, none, [("TOPIC".data, some "Test".data), ("APPENDIX".data, none)],
    "Hello\n".data⟩,
   ["a.jpg".data]⟩

def serC4 : List Char :=
  "BEGIN: 2024-01-05\nEND: None\nTOPIC: Test\nAPPENDIX: None\n\nHello\n".data

/-- Counterexample to claim C4 as stated: serializing an entry with an
attachment emits no `MEDIA` line at all — no line of the output starts
with `MEDIA`. -/
theorem serialize_omits_media_lines :
    exEntryC4.media = ["a.jpg".data] ∧
    toText exEntryC4.fields = some serC4 ∧
    (pySplit '\n' serC4).all
      (fun l => decide (l.take 5 ≠ "MEDIA".data)) = true := by decide

/-- Fields used to instantiate the C4 line-order theorem. -/
def exFieldsC4 : Fields :=
  ⟨⟨2024, 1, 5⟩, none, [("TOPIC".data, some "Test".data), ("APPENDIX".data, none)],
   "Hello\n".data⟩

/-- Witness for the amended C4 theorem at a concrete field set. -/
theorem serialize_line_order_witness :
    dlookup "TOPIC".data exFieldsC4.headers = some (some "Test".data) ∧
    dlookup "APPENDIX".data exFieldsC4.headers = some none ∧
    toText exFieldsC4 = some serC4 ∧
    pySplit '\n' serC4 =
      ["BEGIN: ".data ++ format_ymd (some exFieldsC4.begin),
       "END: ".data ++ format_ymd exFieldsC4.end_,
       "TOPIC: ".data ++ format_defval (some "Test".data),
       "APPENDIX: ".data ++ format_defval none,
       []] ++ pySplit '\n' exFieldsC4.content := by
  refine ⟨by decide, by decide, by decide, ?_⟩
  obtain ⟨s, hs1, hs2⟩ := serialize_line_order exFieldsC4 (some "Test".data) none
    (by decide) (by decide) (by decide) (by decide)
  have hser : s = serC4 := by
    have h2 : toText exFieldsC4 = some serC4 := by decide
    rw [hs1] at h2
    exact Option.some.inj h2
  rw [← hser]
  exact hs2

/-! ## Claim C2: parse/serialize round trip -/

theorem digit_toNat {c : Char} (h : c.isDigit = true) :
    48 ≤ c.toNat ∧ c.toNat ≤ 57 := by
  simp [Char.isDigit] at h
  exact h

/-- The digit accumulator stays below `(a + 1) * 10 ^ length`. -/
theorem foldl_digits_lt {l : List Char} (h : ∀ c ∈ l, c.isDigit = true) :
    ∀ a : Nat, List.foldl (fun a c => 10 * a + (c.toNat - 48)) a l <
      (a + 1) * 10 ^ l.length := by
  induction l with
  | nil => intro a; simp
  | cons c cs ih =>
    intro a
    have hc := digit_toNat (h c (List.mem_cons_self _ _))
    have ihs := ih (fun d hd => h d (List.mem_cons_of_mem _ hd))
      (10 * a + (c.toNat - 48))
    simp only [List.foldl_cons, List.length_cons]
    calc List.foldl (fun a c => 10 * a + (c.toNat - 48))
          (10 * a + (c.toNat - 48)) cs
        < (10 * a + (c.toNat - 48) + 1) * 10 ^ cs.length := ihs
      _ ≤ ((a + 1) * 10) * 10 ^ cs.length := by
          have : 10 * a + (c.toNat - 48) + 1 ≤ (a + 1) * 10 := by omega
          exact Nat.mul_le_mul_right _ this
      _ = (a + 1) * 10 ^ (cs.length + 1) := by rw [pow_succ]; ring

theorem decDigits_lt {l : List Char} (h : ∀ c ∈ l, c.isDigit = true) :
    decDigits l < 10 ^ l.length := by
  have := foldl_digits_lt h 0
  simpa [decDigits] using this

theorem daysInMonth_le (y m : Nat) : daysInMonth y m ≤ 31 := by
  unfold daysInMonth
  split
  · split <;> omega
  · split <;> omega

/-- Date validity carried by every date `try_parse` accepts. -/
def DateOK (d : Date) : Prop :=
  1 ≤ d.year ∧ d.year ≤ 9999 ∧ 1 ≤ d.month ∧ d.month ≤ 12 ∧
  1 ≤ d.day ∧ d.day ≤ daysInMonth d.year d.month

theorem parseDate_inv {v : List Char} {d : Date} (h : parseDate v = some d) :
    DateOK d := by
  unfold parseDate at h
  split at h
  next ys ms ds heq =>
    split at h
    next hfmt =>
      dsimp only at h
      split at h
      next hrange =>
        obtain ⟨h4, hdy, -⟩ := hfmt
        have hy : decDigits ys < 10 ^ (4 : Nat) := by
          rw [← h4]
          exact decDigits_lt (by simpa [List.all_eq_true] using hdy)
        cases h
        refine ⟨hrange.1, ?_, hrange.2.1, hrange.2.2.1, hrange.2.2.2⟩
        show decDigits ys ≤ 9999
        simp at hy
        omega
      · exact absurd h (by simp)
    · exact absurd h (by simp)
  · exact absurd h (by simp)

theorem parse_ymd_inv {v : List Char} {d : Date} (h : parse_ymd v = some d) :
    DateOK d := by
  unfold parse_ymd at h
  split at h
  · exact absurd h (by simp)
  · exact parseDate_inv h

/-- Formatting then re-parsing a valid date with a four-digit year is
the identity. -/
theorem parse_format_ymd {d : Date} (hok : DateOK d) (hy : 1000 ≤ d.year) :
    parse_ymd (format_ymd (some d)) = some d := by
  obtain ⟨h1, h2, h3, h4, h5, h6⟩ := hok
  have hjoin : format_ymd (some d) =
      pyJoin '-' [natToDec d.year, pad2 d.month, pad2 d.day] := by
    unfold format_ymd
    show _ = natToDec d.year ++ '-' :: (pad2 d.month ++ '-' :: pad2 d.day)
    simp
  have hnodash : ∀ l ∈ [natToDec d.year, pad2 d.month, pad2 d.day], '-' ∉ l := by
    intro l hl
    simp at hl
    rcases hl with rfl | rfl | rfl
    · intro hc
      exact (mem_digitChars_ne (mem_natToDec hc)).2.2.1 rfl
    · intro hc
      exact (mem_digitChars_ne (mem_pad2 hc)).2.2.1 rfl
    · intro hc
      exact (mem_digitChars_ne (mem_pad2 hc)).2.2.1 rfl
  have hylen : (natToDec d.year).length = 4 := natToDec_length_four hy h2
  have hmlen : (pad2 d.month).length = 2 := pad2_length (by omega)
  have hdim : daysInMonth d.year d.month ≤ 31 := daysInMonth_le d.year d.month
  have hdlen : (pad2 d.day).length = 2 := pad2_length (by omega)
  have hlenbig : (format_ymd (some d)).length = 10 := by
    rw [hjoin]
    show (natToDec d.year ++ '-' :: (pad2 d.month ++ '-' :: pad2 d.day)).length = 10
    simp [hylen, hmlen, hdlen]
  have hne : parse_defval (format_ymd (some d)) = some (format_ymd (some d)) := by
    unfold parse_defval
    rw [if_neg]
    intro hcon
    rcases hcon with hcon | hcon
    · have hlen := congrArg List.length hcon
      simp [toLowerL] at hlen
      omega
    · rw [hcon] at hlenbig
      simp at hlenbig
  unfold parse_ymd
  rw [hne]
  dsimp only
  unfold parseDate
  rw [hjoin, pySplit_pyJoin hnodash (by simp)]
  dsimp only
  rw [if_pos, if_pos]
  · rw [decDigits_natToDec, decDigits_pad2, decDigits_pad2]
  · rw [decDigits_natToDec, decDigits_pad2, decDigits_pad2]
    exact ⟨by omega, by omega, h4, h5, h6⟩
  · refine ⟨hylen, ?_, Or.inr hmlen, ?_, Or.inr hdlen, ?_⟩
    · rw [List.all_eq_true]
      exact fun c hc => digit_isDigit (mem_natToDec hc)
    · rw [List.all_eq_true]
      exact fun c hc => digit_isDigit (mem_pad2 hc)
    · rw [List.all_eq_true]
      exact fun c hc => digit_isDigit (mem_pad2 hc)

/-- Invariant of every header value stored by a successful parse. -/
def ValOK : Option (List Char) → Prop
  | none => True
  | some v => v ≠ [] ∧ toLowerL v ≠ "none".data ∧ rstrip v = v ∧
      '\n' ∉ v ∧ '\r' ∉ v

/-- Invariant of the body produced by a successful parse. -/
def ContentOK (c : List Char) : Prop :=
  c ≠ [] ∧ '\r' ∉ c ∧ (∀ l ∈ pySplit '\n' c, rstrip l = l) ∧
  ∃ w x, c = w ++ [x, '\n'] ∧ pySpace x = false

theorem splitOnce2_eq {a b : Char} : ∀ {l x y : List Char},
    splitOnce2 a b l = some (x, y) → l = x ++ a :: b :: y := by
  intro l
  induction l with
  | nil => intro x y h; simp [splitOnce2] at h
  | cons c cs ih =>
    intro x y h
    cases cs with
    | nil => simp [splitOnce2] at h
    | cons d rest =>
      rw [show splitOnce2 a b (c :: d :: rest) =
          (if c = a ∧ d = b then some ([], rest)
           else (splitOnce2 a b (d :: rest)).map
             (fun p => (c :: p.1, p.2))) from rfl] at h
      split at h
      next hab =>
        cases h
        rw [hab.1, hab.2]
        rfl
      · cases hs : splitOnce2 a b (d :: rest) with
        | none => rw [hs] at h; simp at h
        | some p =>
          rw [hs] at h
          simp at h
          obtain ⟨rfl, rfl⟩ : x = c :: p.1 ∧ y = p.2 := ⟨h.1.symm, h.2.symm⟩
          rw [show (c :: p.1) ++ a :: b :: p.2 = c :: (p.1 ++ a :: b :: p.2)
            from rfl, ← ih hs]

theorem splitHeaderLines_mem : ∀ {ls : List (List Char)}
    {ps : List (List Char × List Char)} {k v : List Char},
    splitHeaderLines ls = some ps → (k, v) ∈ ps →
    ∃ l ∈ ls, l = k ++ ':' :: ' ' :: v := by
  intro ls
  induction ls with
  | nil =>
    intro ps k v h hm
    cases h
    simp at hm
  | cons l rest ih =>
    intro ps k v h hm
    rw [show splitHeaderLines (l :: rest) =
        (match splitOnce2 ':' ' ' l with
         | none => none
         | some kv => (splitHeaderLines rest).map (fun t => kv :: t)) from rfl]
      at h
    cases hkv : splitOnce2 ':' ' ' l with
    | none => rw [hkv] at h; simp at h
    | some kv =>
      rw [hkv] at h
      cases hrest : splitHeaderLines rest with
      | none => rw [hrest] at h; simp at h
      | some ps2 =>
        rw [hrest] at h
        simp at h
        subst h
        rcases List.mem_cons.mp hm with hh | hh
        · refine ⟨l, List.mem_cons_self _ _, ?_⟩
          have := splitOnce2_eq hkv
          subst hh
          exact this
        · obtain ⟨l2, hl2, he⟩ := ih hrest hh
          exact ⟨l2, List.mem_cons_of_mem _ hl2, he⟩

theorem mem_dinsert {k : List Char} {v : Option (List Char)} :
    ∀ {h : Hdrs} {p}, p ∈ dinsert k v h → p = (k, v) ∨ p ∈ h := by
  intro h
  induction h with
  | nil =>
    intro p hp
    rw [show dinsert k v [] = [(k, v)] from rfl] at hp
    simp at hp
    exact Or.inl hp
  | cons q rest ih =>
    intro p hp
    rw [show dinsert k v (q :: rest) =
        (if q.1 = k then (k, v) :: rest else q :: dinsert k v rest) from rfl]
      at hp
    split at hp
    · rcases List.mem_cons.mp hp with rfl | hp
      · exact Or.inl rfl
      · exact Or.inr (List.mem_cons_of_mem _ hp)
    · rcases List.mem_cons.mp hp with rfl | hp
      · exact Or.inr (List.mem_cons_self _ _)
      · rcases ih hp with hh | hh
        · exact Or.inl hh
        · exact Or.inr (List.mem_cons_of_mem _ hh)

theorem dlookup_mem {k : List Char} :
    ∀ {h : Hdrs} {v}, dlookup k h = some v → (k, v) ∈ h := by
  intro h
  induction h with
  | nil => intro v hv; simp [dlookup] at hv
  | cons q rest ih =>
    intro v hv
    rw [show dlookup k (q :: rest) =
        (if q.1 = k then some q.2 else dlookup k rest) from rfl] at hv
    split at hv
    next hq =>
      cases hv
      obtain ⟨q1, q2⟩ := q
      simp at hq
      subst hq
      exact List.mem_cons_self _ _
    · exact List.mem_cons_of_mem _ (ih hv)

/-- The shape of sanitised text: a right-stripped prefix (empty or
ending in non-whitespace) followed by one newline. -/
theorem sanitise_split_shape (t : List Char) :
    ∃ z, sanitise_entry t = z ++ ['\n'] ∧ rstrip z = z ∧
      (z = [] ∨ ∃ y c, z = y ++ [c] ∧ pySpace c = false) := by
  unfold sanitise_entry
  dsimp only
  exact ⟨_, rfl, rstrip_idem _, rstrip_shape _⟩

theorem parse_ymd_DateOK {v : List Char} {d : Date}
    (h : parse_ymd v = some d) : DateOK d := parse_ymd_inv h

/-- Fold invariant of the header loop: if every value in the pair list
parses to an invariant-satisfying default value, then every slot of the
result satisfies the invariants. -/
theorem processHeadersGo_inv {ps : List (List Char × List Char)}
    (hv : ∀ kv ∈ ps, ValOK (parse_defval kv.2)) :
    ∀ b e h, (∀ d, b = some d → DateOK d) → (∀ d, e = some d → DateOK d) →
      (∀ p ∈ h, ValOK p.2) →
      (∀ d, (processHeadersGo b e h ps).1 = some d → DateOK d) ∧
      (∀ d, (processHeadersGo b e h ps).2.1 = some d → DateOK d) ∧
      (∀ p ∈ (processHeadersGo b e h ps).2.2, ValOK p.2) := by
  induction ps with
  | nil => exact fun b e h hb he hh => ⟨hb, he, hh⟩
  | cons kv rest ih =>
    intro b e h hb he hh
    obtain ⟨k, v⟩ := kv
    have hvrest : ∀ kv ∈ rest, ValOK (parse_defval kv.2) :=
      fun kv hkv => hv kv (List.mem_cons_of_mem _ hkv)
    rw [show processHeadersGo b e h ((k, v) :: rest) =
        (if k = "BEGIN".data then processHeadersGo (parse_ymd v) e h rest
         else if k = "END".data then processHeadersGo b (parse_ymd v) h rest
         else processHeadersGo b e (dinsert k (parse_defval v) h) rest) from rfl]
    split
    · exact ih hvrest _ e h (fun d hd => parse_ymd_DateOK hd) he hh
    split
    · exact ih hvrest b _ h hb (fun d hd => parse_ymd_DateOK hd) hh
    · refine ih hvrest b e _ hb he ?_
      intro p hp
      rcases mem_dinsert hp with rfl | hp
      · exact hv (k, v) (List.mem_cons_self _ _)
      · exact hh p hp

/-- Everything a successful parse guarantees about the produced fields:
valid dates, invariant-satisfying header values, and a normalised body. -/
theorem try_parse_ok_invariants {t : List Char} {f : Fields}
    (h : try_parse t = .ok f) :
    DateOK f.begin ∧ (∀ d, f.end_ = some d → DateOK d) ∧
    (∀ p ∈ f.headers, ValOK p.2) ∧ ContentOK f.content := by
  obtain ⟨hne, H, pairs, hsplit, hpairs, hproc, htop, happ, hcon⟩ := try_parse_ok h
  have hwcr : '\r' ∉ sanitise_entry t := sanitise_no_cr t
  have hwlines : ∀ l ∈ pySplit '\n' (sanitise_entry t), rstrip l = l :=
    sanitise_lines_rstripped t
  obtain ⟨z, hz1, hz2, hz3⟩ := sanitise_split_shape t
  have hweq : sanitise_entry t = H ++ '\n' :: '\n' :: f.content :=
    splitOnce2_eq hsplit
  have hwsplit : pySplit '\n' (sanitise_entry t) =
      pySplit '\n' H ++ [] :: pySplit '\n' f.content := by
    rw [hweq, show H ++ '\n' :: '\n' :: f.content =
      H ++ '\n' :: ('\n' :: f.content) from rfl, pySplit_append, pySplit_delim_cons]
  have hHlineOK : ∀ l ∈ pySplit '\n' H, rstrip l = l ∧ '\n' ∉ l ∧ '\r' ∉ l := by
    intro l hl
    refine ⟨hwlines l (by rw [hwsplit]; exact List.mem_append_left _ hl),
      not_mem_of_mem_pySplit hl, ?_⟩
    intro hmem
    refine hwcr ?_
    rw [hweq]
    exact List.mem_append_left _ (mem_of_mem_pySplit hl hmem)
  have hval : ∀ kv ∈ pairs, ValOK (parse_defval kv.2) := by
    intro kv hkv
    obtain ⟨k2, v2⟩ := kv
    obtain ⟨l, hl, hle⟩ := splitHeaderLines_mem hpairs hkv
    have hlH : l ∈ pySplit '\n' H := (List.mem_filter.mp hl).1
    obtain ⟨hr, hn, hcr⟩ := hHlineOK l hlH
    have hle2 : l = (k2 ++ [':', ' ']) ++ v2 := by
      rw [hle]
      simp
    have hv2r : rstrip v2 = v2 := by
      refine rstrip_fixed_suffix (a := k2 ++ [':', ' ']) ?_
      rw [← hle2]
      exact hr
    show ValOK (parse_defval v2)
    unfold parse_defval
    split
    · trivial
    next hcond =>
      push_neg at hcond
      refine ⟨hcond.2, hcond.1, hv2r, ?_, ?_⟩
      · intro hmem
        refine hn ?_
        rw [hle2]
        simp [hmem]
      · intro hmem
        refine hcr ?_
        rw [hle2]
        simp [hmem]
  have hgo : processHeadersGo none none [] pairs =
      (some f.begin, f.end_, f.headers) := hproc
  have hinv := processHeadersGo_inv hval none none []
    (by simp) (by simp) (by simp)
  rw [hgo] at hinv
  refine ⟨hinv.1 f.begin rfl, fun d hd => hinv.2.1 d hd, hinv.2.2, ?_⟩
  -- ContentOK
  refine ⟨hcon, ?_, ?_, ?_⟩
  · intro hmem
    refine hwcr ?_
    rw [hweq]
    refine List.mem_append_right _ ?_
    simp [hmem]
  · intro l hl
    exact hwlines l (by
      rw [hwsplit]
      refine List.mem_append_right _ ?_
      exact List.mem_cons_of_mem _ hl)
  · -- tail shape via reverse analysis
    have hrev1 : (sanitise_entry t).reverse = '\n' :: z.reverse := by
      rw [hz1]
      simp
    have hrev2 : (sanitise_entry t).reverse =
        f.content.reverse ++ '\n' :: '\n' :: H.reverse := by
      rw [hweq]
      simp
    cases hcrev : f.content.reverse with
    | nil =>
      exfalso
      exact hcon (by simpa using congrArg List.reverse hcrev)
    | cons d1 tl =>
      cases tl with
      | nil =>
        exfalso
        rw [hcrev] at hrev2
        rw [hrev1] at hrev2
        simp at hrev2
        obtain ⟨rfl, hz⟩ := hrev2
        rcases hz3 with rfl | ⟨y, c0, rfl, hc0⟩
        · simp at hz
        · have hz4 := congrArg List.reverse hz
          simp at hz4
          rw [hz4.1] at hc0
          simp [pySpace] at hc0
      | cons d2 rest =>
        rw [hcrev] at hrev2
        rw [hrev1] at hrev2
        simp at hrev2
        obtain ⟨rfl, hz⟩ := hrev2
        rcases hz3 with rfl | ⟨y, c0, rfl, hc0⟩
        · simp at hz
        · have hz4 := congrArg List.reverse hz
          simp at hz4
          refine ⟨rest.reverse, c0, ?_, hc0⟩
          rw [hz4.1]
          have hcc := congrArg List.reverse hcrev
          simp at hcc
          rw [hcc]

theorem format_ymd_no_cr (o : Option Date) : '\r' ∉ format_ymd o := by
  cases o with
  | none => decide
  | some d =>
    unfold format_ymd
    intro h
    rcases List.mem_append.mp h with h | h
    · rcases List.mem_append.mp h with h | h
      · exact (mem_digitChars_ne (mem_natToDec h)).2.2.2.2.1 rfl
      · rcases List.mem_cons.mp h with h | h
        · exact absurd h (by decide)
        · exact (mem_digitChars_ne (mem_pad2 h)).2.2.2.2.1 rfl
    · rcases List.mem_cons.mp h with h | h
      · exact absurd h (by decide)
      · exact (mem_digitChars_ne (mem_pad2 h)).2.2.2.2.1 rfl

theorem format_defval_no_nl {v : Option (List Char)} (hV : ValOK v) :
    '\n' ∉ format_defval v := by
  cases v with
  | none => decide
  | some v =>
    show '\n' ∉ (if v = [] then "None".data else v)
    rw [if_neg hV.1]
    exact hV.2.2.2.1

theorem format_defval_no_cr {v : Option (List Char)} (hV : ValOK v) :
    '\r' ∉ format_defval v := by
  cases v with
  | none => decide
  | some v =>
    show '\r' ∉ (if v = [] then "None".data else v)
    rw [if_neg hV.1]
    exact hV.2.2.2.2

/-- `format_ymd` always ends in a non-whitespace character. -/
theorem format_ymd_concat (o : Option Date) :
    ∃ y c, format_ymd o = y ++ [c] ∧ pySpace c = false := by
  cases o with
  | none => exact ⟨['N', 'o', 'n'], 'e', rfl, by decide⟩
  | some d =>
    obtain ⟨yd, cd, hyd, hcd⟩ := pad2_concat d.day
    refine ⟨natToDec d.year ++ '-' :: pad2 d.month ++ '-' :: yd, cd, ?_,
      (mem_digitChars_ne hcd).2.2.2.2.2.2.1⟩
    show natToDec d.year ++ '-' :: pad2 d.month ++ '-' :: pad2 d.day = _
    rw [hyd]
    simp

/-- `format_defval` of an invariant-satisfying value ends in a
non-whitespace character. -/
theorem format_defval_concat {v : Option (List Char)} (hV : ValOK v) :
    ∃ y c, format_defval v = y ++ [c] ∧ pySpace c = false := by
  cases v with
  | none => exact ⟨['N', 'o', 'n'], 'e', rfl, by decide⟩
  | some v =>
    show ∃ y c, (if v = [] then "None".data else v) = y ++ [c] ∧ _
    rw [if_neg hV.1]
    rcases rstrip_shape v with hsh | ⟨y, c, hsh, hc⟩
    · rw [hV.2.2.1] at hsh
      exact absurd hsh hV.1
    · rw [hV.2.2.1] at hsh
      exact ⟨y, c, hsh, hc⟩

/-- Re-parsing a formatted default value is the identity on
invariant-satisfying values. -/
theorem parse_format_defval {v : Option (List Char)} (hV : ValOK v) :
    parse_defval (format_defval v) = v := by
  cases v with
  | none => decide
  | some v =>
    show parse_defval (if v = [] then "None".data else v) = some v
    rw [if_neg hV.1]
    unfold parse_defval
    rw [if_neg]
    intro hcon
    rcases hcon with hcon | hcon
    · exact hV.2.1 hcon
    · exact hV.1 hcon

theorem splitOnce2_cons2 (a b c d : Char) (rest : List Char) :
    splitOnce2 a b (c :: d :: rest) =
      if c = a ∧ d = b then some ([], rest)
      else (splitOnce2 a b (d :: rest)).map (fun p => (c :: p.1, p.2)) := rfl

/-- Finding the blank-line separator right after a newline-free line. -/
theorem splitOnce2_at_sep {l : List Char} (hl : '\n' ∉ l) (c : List Char) :
    splitOnce2 '\n' '\n' (l ++ '\n' :: '\n' :: c) = some (l, c) := by
  induction l with
  | nil => simp [splitOnce2_cons2]
  | cons d l2 ih =>
    simp at hl
    have hl2 : '\n' ∉ l2 := hl.2
    cases hx : l2 ++ '\n' :: '\n' :: c with
    | nil => simp at hx
    | cons x xs =>
      rw [List.cons_append, hx, splitOnce2_cons2, if_neg, ← hx, ih hl2]
      · rfl
      · intro hcon
        exact hl.1 hcon.1.symm

/-- Skipping a newline-free line followed by a single newline while
searching for the separator, provided the next line does not start with
a newline. -/
theorem splitOnce2_skip_line {l rest h t : List Char} (hl : '\n' ∉ l)
    (hhead : rest.head? ≠ some '\n')
    (hr : splitOnce2 '\n' '\n' rest = some (h, t)) :
    splitOnce2 '\n' '\n' (l ++ '\n' :: rest) = some (l ++ '\n' :: h, t) := by
  induction l with
  | nil =>
    cases rest with
    | nil => simp [splitOnce2] at hr
    | cons x xs =>
      simp at hhead
      rw [List.nil_append, splitOnce2_cons2, if_neg, hr]
      · rfl
      · intro hcon
        exact hhead hcon.2
  | cons d l2 ih =>
    simp at hl
    cases hx : l2 ++ '\n' :: rest with
    | nil => simp at hx
    | cons x xs =>
      rw [List.cons_append, hx, splitOnce2_cons2, if_neg, ← hx, ih hl.2]
      · rfl
      · intro hcon
        exact hl.1 hcon.1.symm

/-- Splitting a `key: value` header line at the first `': '`. -/
theorem splitOnce2_key {k : List Char} (hk : ':' ∉ k) (v : List Char) :
    splitOnce2 ':' ' ' (k ++ ':' :: ' ' :: v) = some (k, v) := by
  induction k with
  | nil => simp [splitOnce2_cons2]
  | cons d k2 ih =>
    simp at hk
    cases hx : k2 ++ ':' :: ' ' :: v with
    | nil => simp at hx
    | cons x xs =>
      rw [List.cons_append, hx, splitOnce2_cons2, if_neg, ← hx, ih hk.2]
      · rfl
      · intro hcon
        exact hk.1 hcon.1.symm

/-- Right-stripping text that ends with the normalised body tail just
removes nothing but the final newline, which is restored. -/
theorem tail_rstrip {w : List Char} {x : Char} (hx : pySpace x = false)
    (pre : List Char) :
    rstrip (pre ++ (w ++ [x, '\n'])) ++ ['\n'] = pre ++ (w ++ [x, '\n']) := by
  have hshape : pre ++ (w ++ [x, '\n']) = ((pre ++ w) ++ [x]) ++ ['\n'] := by
    simp
  rw [hshape, rstrip_append_space (by decide), rstrip_append_nonspace hx]

theorem parse_ymd_none_lit : parse_ymd "None".data = none := by decide

theorem splitHeaderLines_cons (l : List Char) (rest : List (List Char))
    (kv : List Char × List Char) (h : splitOnce2 ':' ' ' l = some kv) :
    splitHeaderLines (l :: rest) =
      (splitHeaderLines rest).map (fun t => kv :: t) := by
  show (match splitOnce2 ':' ' ' l with
    | none => none
    | some kv => (splitHeaderLines rest).map (fun t => kv :: t)) = _
  rw [h]

/-- Claim C2 (amended): for fields produced by a successful parse whose
header dict holds only the `TOPIC` and `APPENDIX` keys and whose date
years are at least 1000 (four `%Y` digits on the glibc platform),
serializing and re-parsing reproduces the same begin/end dates, body,
and header dictionary (dictionary equality is key-wise lookup equality;
the emission order of the two keys may differ from their original
insertion order). -/
theorem parse_serialize_roundtrip (t : List Char) (f : Fields)
    (hp : try_parse t = .ok f)
    (honly : ∀ k v, dlookup k f.headers = some v →
      k = "TOPIC".data ∨ k = "APPENDIX".data)
    (hby : 1000 ≤ f.begin.year)
    (hey : ∀ d, f.end_ = some d → 1000 ≤ d.year) :
    ∃ s f1, toText f = some s ∧ try_parse s = .ok f1 ∧
      f1.begin = f.begin ∧ f1.end_ = f.end_ ∧ f1.content = f.content ∧
      ∀ k, dlookup k f1.headers = dlookup k f.headers := by
  obtain ⟨hbOK, heOK, hvals, hcOK⟩ := try_parse_ok_invariants hp
  obtain ⟨-, H0, pairs0, -, -, -, htop, happ, -⟩ := try_parse_ok hp
  cases htv : dlookup "TOPIC".data f.headers with
  | none => exact absurd htv htop
  | some tv =>
  cases hav : dlookup "APPENDIX".data f.headers with
  | none => exact absurd hav happ
  | some av =>
  have hVtv : ValOK tv := hvals _ (dlookup_mem htv)
  have hVav : ValOK av := hvals _ (dlookup_mem hav)
  obtain ⟨cne, ccr, clines, w0, x0, ctail, hx0⟩ := hcOK
  -- newline-freeness of the four header lines
  have hL1nl : '\n' ∉ "BEGIN: ".data ++ format_ymd (some f.begin) := by
    intro h
    rcases List.mem_append.mp h with h | h
    · exact absurd h (by decide)
    · exact format_ymd_no_nl _ h
  have hL2nl : '\n' ∉ "END: ".data ++ format_ymd f.end_ := by
    intro h
    rcases List.mem_append.mp h with h | h
    · exact absurd h (by decide)
    · exact format_ymd_no_nl _ h
  have hL3nl : '\n' ∉ "TOPIC: ".data ++ format_defval tv := by
    intro h
    rcases List.mem_append.mp h with h | h
    · exact absurd h (by decide)
    · exact format_defval_no_nl hVtv h
  have hL4nl : '\n' ∉ "APPENDIX: ".data ++ format_defval av := by
    intro h
    rcases List.mem_append.mp h with h | h
    · exact absurd h (by decide)
    · exact format_defval_no_nl hVav h
  -- the serialized text, in nested line form
  have htext : toText f = some
      (("BEGIN: ".data ++ format_ymd (some f.begin)) ++ '\n' ::
       (("END: ".data ++ format_ymd f.end_) ++ '\n' ::
        (("TOPIC: ".data ++ format_defval tv) ++ '\n' ::
         (("APPENDIX: ".data ++ format_defval av) ++ '\n' ::
          ('\n' :: f.content))))) := by
    unfold toText
    rw [htv, hav]
    simp [List.append_assoc]
  -- the three sanitise stability facts
  have hcr : '\r' ∉ (("BEGIN: ".data ++ format_ymd (some f.begin)) ++ '\n' ::
      (("END: ".data ++ format_ymd f.end_) ++ '\n' ::
       (("TOPIC: ".data ++ format_defval tv) ++ '\n' ::
        (("APPENDIX: ".data ++ format_defval av) ++ '\n' ::
         ('\n' :: f.content))))) := by
    intro hm
    rcases List.mem_append.mp hm with hm | hm
    · rcases List.mem_append.mp hm with hm | hm
      · exact absurd hm (by decide)
      · exact format_ymd_no_cr _ hm
    rcases List.mem_cons.mp hm with hm | hm
    · exact absurd hm (by decide)
    rcases List.mem_append.mp hm with hm | hm
    · rcases List.mem_append.mp hm with hm | hm
      · exact absurd hm (by decide)
      · exact format_ymd_no_cr _ hm
    rcases List.mem_cons.mp hm with hm | hm
    · exact absurd hm (by decide)
    rcases List.mem_append.mp hm with hm | hm
    · rcases List.mem_append.mp hm with hm | hm
      · exact absurd hm (by decide)
      · exact format_defval_no_cr hVtv hm
    rcases List.mem_cons.mp hm with hm | hm
    · exact absurd hm (by decide)
    rcases List.mem_append.mp hm with hm | hm
    · rcases List.mem_append.mp hm with hm | hm
      · exact absurd hm (by decide)
      · exact format_defval_no_cr hVav hm
    rcases List.mem_cons.mp hm with hm | hm
    · exact absurd hm (by decide)
    rcases List.mem_cons.mp hm with hm | hm
    · exact absurd hm (by decide)
    · exact ccr hm
  have hlineseq : pySplit '\n'
      (("BEGIN: ".data ++ format_ymd (some f.begin)) ++ '\n' ::
       (("END: ".data ++ format_ymd f.end_) ++ '\n' ::
        (("TOPIC: ".data ++ format_defval tv) ++ '\n' ::
         (("APPENDIX: ".data ++ format_defval av) ++ '\n' ::
          ('\n' :: f.content))))) =
      ("BEGIN: ".data ++ format_ymd (some f.begin)) ::
      ("END: ".data ++ format_ymd f.end_) ::
      ("TOPIC: ".data ++ format_defval tv) ::
      ("APPENDIX: ".data ++ format_defval av) ::
      [] :: pySplit '\n' f.content := by
    rw [pySplit_line_cons hL1nl, pySplit_line_cons hL2nl,
      pySplit_line_cons hL3nl, pySplit_line_cons hL4nl, pySplit_delim_cons]
  have hlinesR : ∀ l ∈ pySplit '\n'
      (("BEGIN: ".data ++ format_ymd (some f.begin)) ++ '\n' ::
       (("END: ".data ++ format_ymd f.end_) ++ '\n' ::
        (("TOPIC: ".data ++ format_defval tv) ++ '\n' ::
         (("APPENDIX: ".data ++ format_defval av) ++ '\n' ::
          ('\n' :: f.content))))), rstrip l = l := by
    intro l hl
    rw [hlineseq] at hl
    rcases List.mem_cons.mp hl with rfl | hl
    · obtain ⟨y, c, hyc, hc⟩ := format_ymd_concat (some f.begin)
      rw [show "BEGIN: ".data ++ format_ymd (some f.begin) =
          ("BEGIN: ".data ++ y) ++ [c] from by rw [hyc]; simp]
      exact rstrip_append_nonspace hc _
    rcases List.mem_cons.mp hl with rfl | hl
    · obtain ⟨y, c, hyc, hc⟩ := format_ymd_concat f.end_
      rw [show "END: ".data ++ format_ymd f.end_ =
          ("END: ".data ++ y) ++ [c] from by rw [hyc]; simp]
      exact rstrip_append_nonspace hc _
    rcases List.mem_cons.mp hl with rfl | hl
    · obtain ⟨y, c, hyc, hc⟩ := format_defval_concat hVtv
      rw [show "TOPIC: ".data ++ format_defval tv =
          ("TOPIC: ".data ++ y) ++ [c] from by rw [hyc]; simp]
      exact rstrip_append_nonspace hc _
    rcases List.mem_cons.mp hl with rfl | hl
    · obtain ⟨y, c, hyc, hc⟩ := format_defval_concat hVav
      rw [show "APPENDIX: ".data ++ format_defval av =
          ("APPENDIX: ".data ++ y) ++ [c] from by rw [hyc]; simp]
      exact rstrip_append_nonspace hc _
    rcases List.mem_cons.mp hl with rfl | hl
    · rfl
    · exact clines l hl
  have htailfix : rstrip
      (("BEGIN: ".data ++ format_ymd (some f.begin)) ++ '\n' ::
       (("END: ".data ++ format_ymd f.end_) ++ '\n' ::
        (("TOPIC: ".data ++ format_defval tv) ++ '\n' ::
         (("APPENDIX: ".data ++ format_defval av) ++ '\n' ::
          ('\n' :: f.content))))) ++ ['\n'] =
      ("BEGIN: ".data ++ format_ymd (some f.begin)) ++ '\n' ::
       (("END: ".data ++ format_ymd f.end_) ++ '\n' ::
        (("TOPIC: ".data ++ format_defval tv) ++ '\n' ::
         (("APPENDIX: ".data ++ format_defval av) ++ '\n' ::
          ('\n' :: f.content)))) := by
    rw [ctail]
    rw [show ("BEGIN: ".data ++ format_ymd (some f.begin)) ++ '\n' ::
        (("END: ".data ++ format_ymd f.end_) ++ '\n' ::
         (("TOPIC: ".data ++ format_defval tv) ++ '\n' ::
          (("APPENDIX: ".data ++ format_defval av) ++ '\n' ::
           ('\n' :: (w0 ++ [x0, '\n']))))) =
        (("BEGIN: ".data ++ format_ymd (some f.begin)) ++ '\n' ::
         (("END: ".data ++ format_ymd f.end_) ++ '\n' ::
          (("TOPIC: ".data ++ format_defval tv) ++ '\n' ::
           (("APPENDIX: ".data ++ format_defval av) ++ ['\n', '\n'])))) ++
        (w0 ++ [x0, '\n']) from by simp]
    exact tail_rstrip hx0 _
  have hsan := sanitise_fixed hcr hlinesR htailfix
  -- find the separator
  have hhead4 : (("APPENDIX: ".data ++ format_defval av) ++
      '\n' :: '\n' :: f.content).head? ≠ some '\n' := by
    rw [show (("APPENDIX: ".data ++ format_defval av) ++
      '\n' :: '\n' :: f.content).head? = some 'A' from rfl]
    simp
  have hhead3 : (("TOPIC: ".data ++ format_defval tv) ++ '\n' ::
      (("APPENDIX: ".data ++ format_defval av) ++
        '\n' :: '\n' :: f.content)).head? ≠ some '\n' := by
    rw [show (("TOPIC: ".data ++ format_defval tv) ++ '\n' ::
      (("APPENDIX: ".data ++ format_defval av) ++
        '\n' :: '\n' :: f.content)).head? = some 'T' from rfl]
    simp
  have hhead2 : (("END: ".data ++ format_ymd f.end_) ++ '\n' ::
      (("TOPIC: ".data ++ format_defval tv) ++ '\n' ::
       (("APPENDIX: ".data ++ format_defval av) ++
         '\n' :: '\n' :: f.content))).head? ≠ some '\n' := by
    rw [show (("END: ".data ++ format_ymd f.end_) ++ '\n' ::
      (("TOPIC: ".data ++ format_defval tv) ++ '\n' ::
       (("APPENDIX: ".data ++ format_defval av) ++
         '\n' :: '\n' :: f.content))).head? = some 'E' from rfl]
    simp
  have h4sep := splitOnce2_at_sep hL4nl f.content
  have h3sep := splitOnce2_skip_line hL3nl hhead4 h4sep
  have h2sep := splitOnce2_skip_line hL2nl hhead3 h3sep
  have h1sep := splitOnce2_skip_line hL1nl hhead2 h2sep
  -- header block lines
  have hHSlines : pySplit '\n'
      (("BEGIN: ".data ++ format_ymd (some f.begin)) ++ '\n' ::
       (("END: ".data ++ format_ymd f.end_) ++ '\n' ::
        (("TOPIC: ".data ++ format_defval tv) ++ '\n' ::
         ("APPENDIX: ".data ++ format_defval av)))) =
      [("BEGIN: ".data ++ format_ymd (some f.begin)),
       ("END: ".data ++ format_ymd f.end_),
       ("TOPIC: ".data ++ format_defval tv),
       ("APPENDIX: ".data ++ format_defval av)] := by
    rw [pySplit_line_cons hL1nl, pySplit_line_cons hL2nl,
      pySplit_line_cons hL3nl, pySplit_eq_single hL4nl]
  have hsw1 : startsWith2 '#' ' '
      ("BEGIN: ".data ++ format_ymd (some f.begin)) = false := rfl
  have hsw2 : startsWith2 '#' ' '
      ("END: ".data ++ format_ymd f.end_) = false := rfl
  have hsw3 : startsWith2 '#' ' '
      ("TOPIC: ".data ++ format_defval tv) = false := rfl
  have hsw4 : startsWith2 '#' ' '
      ("APPENDIX: ".data ++ format_defval av) = false := rfl
  have hkey1 : splitOnce2 ':' ' '
      ("BEGIN: ".data ++ format_ymd (some f.begin)) =
      some ("BEGIN".data, format_ymd (some f.begin)) := by
    rw [show "BEGIN: ".data ++ format_ymd (some f.begin) =
        "BEGIN".data ++ ':' :: ' ' :: format_ymd (some f.begin) from rfl]
    exact splitOnce2_key (by decide) _
  have hkey2 : splitOnce2 ':' ' ' ("END: ".data ++ format_ymd f.end_) =
      some ("END".data, format_ymd f.end_) := by
    rw [show "END: ".data ++ format_ymd f.end_ =
        "END".data ++ ':' :: ' ' :: format_ymd f.end_ from rfl]
    exact splitOnce2_key (by decide) _
  have hkey3 : splitOnce2 ':' ' ' ("TOPIC: ".data ++ format_defval tv) =
      some ("TOPIC".data, format_defval tv) := by
    rw [show "TOPIC: ".data ++ format_defval tv =
        "TOPIC".data ++ ':' :: ' ' :: format_defval tv from rfl]
    exact splitOnce2_key (by decide) _
  have hkey4 : splitOnce2 ':' ' ' ("APPENDIX: ".data ++ format_defval av) =
      some ("APPENDIX".data, format_defval av) := by
    rw [show "APPENDIX: ".data ++ format_defval av =
        "APPENDIX".data ++ ':' :: ' ' :: format_defval av from rfl]
    exact splitOnce2_key (by decide) _
  have hE : parse_ymd (format_ymd f.end_) = f.end_ := by
    cases hfe : f.end_ with
    | none => exact parse_ymd_none_lit
    | some d => exact parse_format_ymd (heOK d hfe) (hey d hfe)
  have hB : parse_ymd (format_ymd (some f.begin)) = some f.begin :=
    parse_format_ymd hbOK hby
  -- run the parser
  refine ⟨_, ⟨f.begin, f.end_, [("TOPIC".data, tv), ("APPENDIX".data, av)],
    f.content⟩, htext, ?_, rfl, rfl, rfl, ?_⟩
  · unfold try_parse
    rw [if_neg (by simp)]
    dsimp only
    rw [hsan, h1sep]
    dsimp only
    rw [show (pySplit '\n'
        (("BEGIN: ".data ++ format_ymd (some f.begin)) ++ '\n' ::
         (("END: ".data ++ format_ymd f.end_) ++ '\n' ::
          (("TOPIC: ".data ++ format_defval tv) ++ '\n' ::
           ("APPENDIX: ".data ++ format_defval av))))).filter
        (fun l => ¬ startsWith2 '#' ' ' l) =
        [("BEGIN: ".data ++ format_ymd (some f.begin)),
         ("END: ".data ++ format_ymd f.end_),
         ("TOPIC: ".data ++ format_defval tv),
         ("APPENDIX: ".data ++ format_defval av)] from by
      rw [hHSlines]
      rfl]
    rw [show splitHeaderLines
        [("BEGIN: ".data ++ format_ymd (some f.begin)),
         ("END: ".data ++ format_ymd f.end_),
         ("TOPIC: ".data ++ format_defval tv),
         ("APPENDIX: ".data ++ format_defval av)] =
        some [("BEGIN".data, format_ymd (some f.begin)),
              ("END".data, format_ymd f.end_),
              ("TOPIC".data, format_defval tv),
              ("APPENDIX".data, format_defval av)] from by
      rw [splitHeaderLines_cons _ _ _ hkey1, splitHeaderLines_cons _ _ _ hkey2,
        splitHeaderLines_cons _ _ _ hkey3, splitHeaderLines_cons _ _ _ hkey4]
      rfl]
    dsimp only
    rw [show processHeaders
        [("BEGIN".data, format_ymd (some f.begin)),
         ("END".data, format_ymd f.end_),
         ("TOPIC".data, format_defval tv),
         ("APPENDIX".data, format_defval av)] =
        (some f.begin, f.end_,
         [("TOPIC".data, tv), ("APPENDIX".data, av)]) from by
      unfold processHeaders
      rw [show processHeadersGo none none []
          [("BEGIN".data, format_ymd (some f.begin)),
           ("END".data, format_ymd f.end_),
           ("TOPIC".data, format_defval tv),
           ("APPENDIX".data, format_defval av)] =
          processHeadersGo (parse_ymd (format_ymd (some f.begin))) none []
          [("END".data, format_ymd f.end_),
           ("TOPIC".data, format_defval tv),
           ("APPENDIX".data, format_defval av)] from by
        rw [show processHeadersGo none none []
            (("BEGIN".data, format_ymd (some f.begin)) ::
             [("END".data, format_ymd f.end_),
              ("TOPIC".data, format_defval tv),
              ("APPENDIX".data, format_defval av)]) =
            (if "BEGIN".data = "BEGIN".data then
               processHeadersGo (parse_ymd (format_ymd (some f.begin))) none []
                 [("END".data, format_ymd f.end_),
                  ("TOPIC".data, format_defval tv),
                  ("APPENDIX".data, format_defval av)]
             else if "BEGIN".data = "END".data then
               processHeadersGo none (parse_ymd (format_ymd (some f.begin))) []
                 [("END".data, format_ymd f.end_),
                  ("TOPIC".data, format_defval tv),
                  ("APPENDIX".data, format_defval av)]
             else
               processHeadersGo none none
                 (dinsert "BEGIN".data
                   (parse_defval (format_ymd (some f.begin))) [])
                 [("END".data, format_ymd f.end_),
                  ("TOPIC".data, format_defval tv),
                  ("APPENDIX".data, format_defval av)]) from rfl]
        rw [if_pos rfl]]
      rw [hB]
      rw [show processHeadersGo (some f.begin) none []
          (("END".data, format_ymd f.end_) ::
           [("TOPIC".data, format_defval tv),
            ("APPENDIX".data, format_defval av)]) =
          (if "END".data = "BEGIN".data then
             processHeadersGo (parse_ymd (format_ymd f.end_)) none []
               [("TOPIC".data, format_defval tv),
                ("APPENDIX".data, format_defval av)]
           else if "END".data = "END".data then
             processHeadersGo (some f.begin) (parse_ymd (format_ymd f.end_)) []
               [("TOPIC".data, format_defval tv),
                ("APPENDIX".data, format_defval av)]
           else
             processHeadersGo (some f.begin) none
               (dinsert "END".data (parse_defval (format_ymd f.end_)) [])
               [("TOPIC".data, format_defval tv),
                ("APPENDIX".data, format_defval av)]) from rfl]
      rw [if_neg (by decide), if_pos rfl, hE]
      rw [show processHeadersGo (some f.begin) f.end_ []
          (("TOPIC".data, format_defval tv) ::
           [("APPENDIX".data, format_defval av)]) =
          (if "TOPIC".data = "BEGIN".data then
             processHeadersGo (parse_ymd (format_defval tv)) f.end_ []
               [("APPENDIX".data, format_defval av)]
           else if "TOPIC".data = "END".data then
             processHeadersGo (some f.begin) (parse_ymd (format_defval tv)) []
               [("APPENDIX".data, format_defval av)]
           else
             processHeadersGo (some f.begin) f.end_
               (dinsert "TOPIC".data (parse_defval (format_defval tv)) [])
               [("APPENDIX".data, format_defval av)]) from rfl]
      rw [if_neg (by decide), if_neg (by decide), parse_format_defval hVtv]
      rw [show processHeadersGo (some f.begin) f.end_
          (dinsert "TOPIC".data tv [])
          (("APPENDIX".data, format_defval av) :: []) =
          (if "APPENDIX".data = "BEGIN".data then
             processHeadersGo (parse_ymd (format_defval av)) f.end_
               (dinsert "TOPIC".data tv []) []
           else if "APPENDIX".data = "END".data then
             processHeadersGo (some f.begin) (parse_ymd (format_defval av))
               (dinsert "TOPIC".data tv []) []
           else
             processHeadersGo (some f.begin) f.end_
               (dinsert "APPENDIX".data (parse_defval (format_defval av))
                 (dinsert "TOPIC".data tv [])) []) from rfl]
      rw [if_neg (by decide), if_neg (by decide), parse_format_defval hVav]
      rw [show dinsert "APPENDIX".data av (dinsert "TOPIC".data tv []) =
          [("TOPIC".data, tv), ("APPENDIX".data, av)] from by
        show dinsert "APPENDIX".data av [("TOPIC".data, tv)] = _
        rw [show dinsert "APPENDIX".data av [("TOPIC".data, tv)] =
            (if "TOPIC".data = "APPENDIX".data then
               ("APPENDIX".data, av) :: []
             else ("TOPIC".data, tv) :: dinsert "APPENDIX".data av [])
            from rfl]
        rw [if_neg (by decide)]
        rfl]
      rfl]
    dsimp only
    rw [if_neg (by
      rw [show dlookup "TOPIC".data
          [("TOPIC".data, tv), ("APPENDIX".data, av)] = some tv from rfl]
      simp)]
    rw [if_neg (by
      rw [show dlookup "APPENDIX".data
          [("TOPIC".data, tv), ("APPENDIX".data, av)] = some av from rfl]
      simp)]
    rw [if_neg cne]
  · -- lookup equality of the two dictionaries
    intro k
    by_cases hk1 : k = "TOPIC".data
    · subst hk1
      rw [htv]
      rfl
    by_cases hk2 : k = "APPENDIX".data
    · subst hk2
      rw [hav]
      rfl
    · have hlhs : dlookup k
          [("TOPIC".data, tv), ("APPENDIX".data, av)] = none := by
        show (if "TOPIC".data = k then some tv
              else if "APPENDIX".data = k then some av else none) = none
        rw [if_neg (fun h => hk1 h.symm), if_neg (fun h => hk2 h.symm)]
      rw [hlhs]
      cases hr : dlookup k f.headers with
      | none => rfl
      | some v =>
        rcases honly k v hr with rfl | rfl
        · exact absurd rfl hk1
        · exact absurd rfl hk2

/-- A parse input carrying an extra unrecognized header line `FOO: bar`. -/
def exTextC2 : List Char :=
  ("BEGIN: 2024-01-05\nEND: None\nTOPIC: Test\nAPPENDIX: None\n" ++
   "FOO: bar\n\nHello\n").data

/-- The fields parsed from `exTextC2`: the extra header is kept. -/
def exFieldsC2 : Fields :=
  ⟨⟨2024, 1, 5⟩, none,
   [("TOPIC".data, some "Test".data), ("APPENDIX".data, none),
    ("FOO".data, some "bar".data)], "Hello\n".data⟩

/-- Serializing `exFieldsC2` drops the extra header line. -/
def exSerC2 : List Char :=
  "BEGIN: 2024-01-05\nEND: None\nTOPIC: Test\nAPPENDIX: None\n\nHello\n".data

/-- The fields parsed back from `exSerC2`: the extra header is gone. -/
def exFieldsC2r : Fields :=
  ⟨⟨2024, 1, 5⟩, none,
   [("TOPIC".data, some "Test".data), ("APPENDIX".data, none)],
   "Hello\n".data⟩

/-- Claim C2 counterexample: parse–serialize–parse is not the identity on
the parse result.  A text with an extra `FOO: bar` header line parses
successfully keeping the header in the dict, but `__str__` emits only the
four fixed headers, so re-parsing the serialized text yields a dict
without `FOO`. -/
theorem roundtrip_loses_extra_headers :
    try_parse exTextC2 = .ok exFieldsC2 ∧
    dlookup "FOO".data exFieldsC2.headers = some (some "bar".data) ∧
    toText exFieldsC2 = some exSerC2 ∧
    try_parse exSerC2 = .ok exFieldsC2r ∧
    dlookup "FOO".data exFieldsC2r.headers = none ∧
    exFieldsC2r ≠ exFieldsC2 := by decide

/-- A round-trip scenario with only the four fixed headers. -/
def exTextC2w : List Char :=
  "BEGIN: 2024-01-05\nEND: None\nTOPIC: Test\nAPPENDIX: None\n\nHello\n".data

/-- The fields parsed from `exTextC2w`. -/
def exFieldsC2w : Fields :=
  ⟨⟨2024, 1, 5⟩, none,
   [("TOPIC".data, some "Test".data), ("APPENDIX".data, none)],
   "Hello\n".data⟩

/-- Witness: the round-trip theorem applies to the concrete scenario
`exTextC2w`, whose parse result satisfies all its hypotheses. -/
theorem parse_serialize_roundtrip_witness :
    try_parse exTextC2w = .ok exFieldsC2w ∧
    (∃ s f1, toText exFieldsC2w = some s ∧ try_parse s = .ok f1 ∧
      f1.begin = exFieldsC2w.begin ∧ f1.end_ = exFieldsC2w.end_ ∧
      f1.content = exFieldsC2w.content ∧
      ∀ k, dlookup k f1.headers = dlookup k exFieldsC2w.headers) :=
  ⟨by decide,
   parse_serialize_roundtrip exTextC2w exFieldsC2w (by decide)
     (by
       intro k v h
       by_cases h1 : "TOPIC".data = k
       · exact Or.inl h1.symm
       · by_cases h2 : "APPENDIX".data = k
         · exact Or.inr h2.symm
         · rw [show dlookup k exFieldsC2w.headers =
               (if "TOPIC".data = k then some (some "Test".data)
                else if "APPENDIX".data = k then some none else none) from rfl,
             if_neg h1, if_neg h2] at h
           cases h)
     (by decide) (by intro d h; cases h)⟩
